import Mathlib

/-!
# Verification of the QUASAR state-vector quantum circuit simulator

This file is a shallow embedding, in Lean 4, of the core of the QUASAR
repository (crates `homaya-core` and `homaya-sim`): the complex amplitude
store (`StateVector`), its gate-application and measurement kernels, the
gate catalog (`Gate::matrix_2x2`) and the circuit executor (`Simulator`).

Modelling conventions:

* Rust `f64` values are modelled as real numbers (`ℝ`) and the crate's own
  `Complex` value type as Mathlib's `ℂ` (a pair of reals with the same
  arithmetic as the Rust implementation).  The float constant
  `INV_SQRT_2 = 0.7071067811865476` is modelled by the real number `1 / √2`
  that it approximates.
* The amplitude array `Vec<Complex>` of a `2^n`-dimensional state is
  modelled as a function `ℕ → ℂ` together with the qubit count `n`;
  in-place loop updates (`self.amplitudes[i] = …`) become `Function.update`
  folded over `List.range (2^n)`, exactly mirroring the Rust `for` loops.
* Fallible constructors / execution return `Except QuasarError`.
* `u64` arithmetic of the xorshift PRNG is modelled on `ℕ` with explicit
  truncation `% 2^64` at the wrapping shifts.
-/

namespace Quasar

open scoped BigOperators
open ComplexConjugate
/-! ## Complex-number helpers from `homaya-core/src/complex.rs` -/

/-- `Complex::from_polar(r, theta)`: `(r·cosθ, r·sinθ)`. -/
noncomputable def fromPolar (r θ : ℝ) : ℂ := ⟨r * Real.cos θ, r * Real.sin θ⟩

/-- `INV_SQRT_2` (the crate's f64 constant `0.7071067811865476`, i.e. `1/√2`). -/
noncomputable def invSqrt2 : ℝ := 1 / Real.sqrt 2

/-! ## State-vector kernels from `homaya-sim/src/statevector.rs`

The amplitude array is a function `ℕ → ℂ`; each kernel folds the body of
the corresponding Rust `for i in 0..dim` loop over `List.range (2^n)`. -/

/-- Loop body of `StateVector::apply_single`: when bit `q` of `i` is 0,
replace the pair `(amp[i], amp[i | mask])` by `M` applied to it. -/
noncomputable def singleStep (mask : ℕ) (M : Fin 2 → Fin 2 → ℂ) (a : ℕ → ℂ) (i : ℕ) :
    ℕ → ℂ :=
  if i &&& mask = 0 then
    let a0 := a i
    let a1 := a (i ||| mask)
    Function.update (Function.update a i (M 0 0 * a0 + M 0 1 * a1))
      (i ||| mask) (M 1 0 * a0 + M 1 1 * a1)
  else a

/-- `StateVector::apply_single(qubit, matrix)`. -/
noncomputable def applySingle (n q : ℕ) (M : Fin 2 → Fin 2 → ℂ) (a : ℕ → ℂ) : ℕ → ℂ :=
  (List.range (2 ^ n)).foldl (singleStep (2 ^ q) M) a

/-- Loop body of `StateVector::apply_controlled`: acts only when the control
bit is 1 and the target bit is 0. -/
noncomputable def controlledStep (controlMask targetMask : ℕ) (M : Fin 2 → Fin 2 → ℂ)
    (a : ℕ → ℂ) (i : ℕ) : ℕ → ℂ :=
  if i &&& controlMask ≠ 0 ∧ i &&& targetMask = 0 then
    let a0 := a i
    let a1 := a (i ||| targetMask)
    Function.update (Function.update a i (M 0 0 * a0 + M 0 1 * a1))
      (i ||| targetMask) (M 1 0 * a0 + M 1 1 * a1)
  else a

/-- `StateVector::apply_controlled(control, target, matrix)`. -/
noncomputable def applyControlled (n c t : ℕ) (M : Fin 2 → Fin 2 → ℂ) (a : ℕ → ℂ) :
    ℕ → ℂ :=
  (List.range (2 ^ n)).foldl (controlledStep (2 ^ c) (2 ^ t) M) a

/-- Loop body of `StateVector::apply_two`: when bits `q0` and `q1` of `i` are
both 0, replace the quadruple of amplitudes at
`{i, i|mask0, i|mask1, i|mask0|mask1}` by `M` applied to it. -/
noncomputable def twoStep (mask0 mask1 : ℕ) (M : Fin 4 → Fin 4 → ℂ) (a : ℕ → ℂ) (i : ℕ) :
    ℕ → ℂ :=
  if i &&& mask0 = 0 ∧ i &&& mask1 = 0 then
    let a00 := a i
    let a01 := a (i ||| mask0)
    let a10 := a (i ||| mask1)
    let a11 := a (i ||| mask0 ||| mask1)
    Function.update (Function.update (Function.update (Function.update a
      i (M 0 0 * a00 + M 0 1 * a01 + M 0 2 * a10 + M 0 3 * a11))
      (i ||| mask0) (M 1 0 * a00 + M 1 1 * a01 + M 1 2 * a10 + M 1 3 * a11))
      (i ||| mask1) (M 2 0 * a00 + M 2 1 * a01 + M 2 2 * a10 + M 2 3 * a11))
      (i ||| mask0 ||| mask1) (M 3 0 * a00 + M 3 1 * a01 + M 3 2 * a10 + M 3 3 * a11)
  else a

/-- `StateVector::apply_two(q0, q1, matrix)`. -/
noncomputable def applyTwo (n q0 q1 : ℕ) (M : Fin 4 → Fin 4 → ℂ) (a : ℕ → ℂ) : ℕ → ℂ :=
  (List.range (2 ^ n)).foldl (twoStep (2 ^ q0) (2 ^ q1) M) a

/-- Born-rule marginal `prob_0` of `StateVector::measure`: the sum of
`|amp[i]|²` over all indices `i` of the array with bit `q` equal to 0. -/
noncomputable def prob0 (n q : ℕ) (a : ℕ → ℂ) : ℝ :=
  ∑ i in Finset.range (2 ^ n), if i &&& 2 ^ q = 0 then Complex.normSq (a i) else 0

/-- Loop body of the collapse loop of `StateVector::measure`. -/
noncomputable def collapseStep (mask result : ℕ) (invSqrtNorm : ℝ) (a : ℕ → ℂ) (i : ℕ) :
    ℕ → ℂ :=
  if (result = 0 ∧ i &&& mask ≠ 0) ∨ (result = 1 ∧ ¬i &&& mask ≠ 0) then
    Function.update a i 0
  else
    Function.update a i (a i * (invSqrtNorm : ℂ))

/-- `StateVector::measure(qubit, random)`: returns the outcome bit and the
collapsed, renormalized amplitude array. -/
noncomputable def measure (n q : ℕ) (r : ℝ) (a : ℕ → ℂ) : ℕ × (ℕ → ℂ) :=
  let mask := 2 ^ q
  let prob_0 := prob0 n q a
  let result := if r < prob_0 then 0 else 1
  let norm := if result = 0 then prob_0 else 1 - prob_0
  let invSqrtNorm := 1 / Real.sqrt norm
  (result, (List.range (2 ^ n)).foldl (collapseStep mask result invSqrtNorm) a)

/-- The X matrix used by `StateVector::reset`. -/
noncomputable def xMatrix : Fin 2 → Fin 2 → ℂ := ![![0, 1], ![1, 0]]

/-- `StateVector::reset(qubit, random)`: measure, then flip back if 1. -/
noncomputable def reset (n q : ℕ) (r : ℝ) (a : ℕ → ℂ) : ℕ → ℂ :=
  let m := measure n q r a
  if m.1 = 1 then applySingle n q xMatrix m.2 else m.2

/-! ## Characterization of the pair-updating loops

`singleStep` and `controlledStep` are instances of one shape: a condition
`C i` (which can hold only when bit `q` of `i` is 0) guards an update of the
pair `(i, i ||| 2^q)` with a fresh linear combination of the old pair. -/

/-- The common loop-body shape of `apply_single` / `apply_controlled`. -/
noncomputable def pairStep (mask : ℕ) (C : ℕ → Prop) [DecidablePred C]
    (M : Fin 2 → Fin 2 → ℂ) (a : ℕ → ℂ) (i : ℕ) : ℕ → ℂ :=
  if C i then
    Function.update (Function.update a i (M 0 0 * a i + M 0 1 * a (i ||| mask)))
      (i ||| mask) (M 1 0 * a i + M 1 1 * a (i ||| mask))
  else a

/-! ## Quadruple toolkit for `apply_two`

Every index decomposes uniquely as a "base" (bits `q0` and `q1` cleared)
plus a sub-basis position `k : Fin 4`; `twoStep` rewrites whole quadruples. -/

/-- The four indices of the quadruple with base `b`:
`{b, b|mask0, b|mask1, b|mask0|mask1}` in the kernel's fixed order. -/
def quadIdx (m0 m1 b : ℕ) (k : Fin 4) : ℕ :=
  if k = 0 then b else if k = 1 then b ||| m0 else if k = 2 then b ||| m1
  else b ||| m0 ||| m1

/-- Row `k` of the matrix applied to the quadruple of old amplitudes. -/
noncomputable def quadRow (M : Fin 4 → Fin 4 → ℂ) (k : Fin 4) (m0 m1 : ℕ)
    (a : ℕ → ℂ) (b : ℕ) : ℂ :=
  M k 0 * a (quadIdx m0 m1 b 0) + M k 1 * a (quadIdx m0 m1 b 1) +
    M k 2 * a (quadIdx m0 m1 b 2) + M k 3 * a (quadIdx m0 m1 b 3)

/-- `x` with bits `q0` and `q1` cleared. -/
def clearBits (q0 q1 x : ℕ) : ℕ := x ^^^ (x &&& 2 ^ q0) ^^^ (x &&& 2 ^ q1)

/-- The sub-basis position of an index within its quadruple. -/
def classOf (q0 q1 j : ℕ) : Fin 4 :=
  if j &&& 2 ^ q0 = 0 then (if j &&& 2 ^ q1 = 0 then 0 else 2)
  else (if j &&& 2 ^ q1 = 0 then 1 else 3)

/-! ## Gate catalog from `homaya-core/src/gate.rs` -/

/-- `GateType`: the closed set of gate identities. -/
inductive GateType where
  | I | X | Y | Z | H | S | Sdg | T | Tdg | Rx | Ry | Rz | P | U
  | CX | CY | CZ | CH | CP | CU | Swap | ISwap | SqrtSwap
  | CCX | CSwap
  | Measure | Reset | Barrier
  deriving DecidableEq, Repr

/-- `GateParams`: no parameters, a single angle, or three angles. -/
inductive GateParams where
  | none
  | angle (θ : ℝ)
  | angles3 (θ φ lam : ℝ)

/-- A gate: its identity plus its parameters. -/
structure Gate where
  gate_type : GateType
  params : GateParams

/-- `Gate::matrix_2x2`: the 2×2 matrix of a single-qubit gate, `none` for
multi-qubit / non-unitary gates or missing parameters. -/
noncomputable def Gate.matrix2x2 (g : Gate) : Option (Fin 2 → Fin 2 → ℂ) :=
  match g.gate_type with
  | .I => some ![![1, 0], ![0, 1]]
  | .X => some ![![0, 1], ![1, 0]]
  | .Y => some ![![0, -Complex.I], ![Complex.I, 0]]
  | .Z => some ![![1, 0], ![0, -1]]
  | .H => some ![![(invSqrt2 : ℂ), (invSqrt2 : ℂ)], ![(invSqrt2 : ℂ), -(invSqrt2 : ℂ)]]
  | .S => some ![![1, 0], ![0, Complex.I]]
  | .Sdg => some ![![1, 0], ![0, -Complex.I]]
  | .T => some ![![1, 0], ![0, fromPolar 1 (Real.pi / 4)]]
  | .Tdg => some ![![1, 0], ![0, fromPolar 1 (-(Real.pi / 4))]]
  | .Rx =>
    match g.params with
    | .angle θ => some ![![(Real.cos (θ / 2) : ℂ), ⟨0, -Real.sin (θ / 2)⟩],
        ![⟨0, -Real.sin (θ / 2)⟩, (Real.cos (θ / 2) : ℂ)]]
    | _ => none
  | .Ry =>
    match g.params with
    | .angle θ => some ![![(Real.cos (θ / 2) : ℂ), -(Real.sin (θ / 2) : ℂ)],
        ![(Real.sin (θ / 2) : ℂ), (Real.cos (θ / 2) : ℂ)]]
    | _ => none
  | .Rz =>
    match g.params with
    | .angle θ => some ![![fromPolar 1 (-θ / 2), 0], ![0, fromPolar 1 (θ / 2)]]
    | _ => none
  | .P =>
    match g.params with
    | .angle θ => some ![![1, 0], ![0, fromPolar 1 θ]]
    | _ => none
  | .U =>
    match g.params with
    | .angles3 θ φ lam => some
        ![![(Real.cos (θ / 2) : ℂ), -fromPolar 1 lam * (Real.sin (θ / 2) : ℂ)],
          ![fromPolar 1 φ * (Real.sin (θ / 2) : ℂ),
            fromPolar 1 (φ + lam) * (Real.cos (θ / 2) : ℂ)]]
    | _ => none
  | _ => none

/-! ## Circuit model from `homaya-core/src/circuit.rs` -/

/-- An instruction: gate, target qubits, classical bits (for measurement). -/
structure Instruction where
  gate : Gate
  qubits : List ℕ
  clbits : List ℕ

/-- A circuit: qubit/classical-bit counts plus the ordered instructions. -/
structure Circuit where
  num_qubits : ℕ
  num_clbits : ℕ
  instructions : List Instruction

/-- The error variants of `QuasarError` reachable from the simulator core. -/
inductive QuasarError where
  | qubitMismatch (expected got : ℕ)
  | stateDimensionMismatch (expected got : ℕ)
  | stateNotNormalized (norm : ℝ)
  | notSupported (operation : String)

/-! ## `StateVector` constructors from `statevector.rs` -/

/-- A state vector as constructed by `from_amplitudes`: the qubit count and
the raw amplitude list. -/
structure StateVector where
  num_qubits : ℕ
  amplitudes : List ℂ

/-- `u64::trailing_zeros` (64 on input 0, matching Rust). -/
def trailingZeros : ℕ → ℕ
  | 0 => 64
  | x + 1 =>
    if (x + 1) % 2 = 1 then 0 else 1 + trailingZeros ((x + 1) / 2)
decreasing_by exact Nat.div_lt_self (Nat.succ_pos x) one_lt_two

/-- `StateVector::new(n)`: the basis state `|0…0⟩` (amplitude 1 at index 0). -/
noncomputable def initState : ℕ → ℂ := fun i => if i = 0 then 1 else 0

/-- `StateVector::from_amplitudes`: reject a length that is zero or not a
power of two, then reject a squared norm farther than `1e-10` from 1. -/
noncomputable def fromAmplitudes (amps : List ℂ) : Except QuasarError StateVector :=
  let dim := amps.length
  if dim = 0 ∨ dim &&& (dim - 1) ≠ 0 then
    .error (.stateDimensionMismatch 0 dim)
  else
    let norm_sqr : ℝ := (amps.map Complex.normSq).sum
    if |norm_sqr - 1| > 1e-10 then
      .error (.stateNotNormalized (Real.sqrt norm_sqr))
    else
      .ok ⟨trailingZeros dim, amps⟩

/-! ## The executor from `homaya-sim/src/simulator.rs` -/

/-- The simulator: optional seed and the xorshift64 generator state. -/
structure Simulator where
  seed : Option ℕ
  rng_state : ℕ

/-- `Simulator::new()`: no explicit seed, fixed default generator state. -/
def Simulator.new : Simulator := ⟨Option.none, 0x853c49e6748fea9b⟩

/-- `Simulator::with_seed(seed)`. -/
def Simulator.withSeed (s : ℕ) : Simulator := ⟨some s, s⟩

/-- One xorshift64 update on a 64-bit state (`x^=x<<13; x^=x>>7; x^=x<<17`),
with wrapping shifts modelled by truncation mod `2^64`. -/
def xorshift64 (x0 : ℕ) : ℕ :=
  let x1 := (x0 ^^^ (x0 <<< 13)) % 2 ^ 64
  let x2 := (x1 ^^^ (x1 >>> 7)) % 2 ^ 64
  let x3 := (x2 ^^^ (x2 <<< 17)) % 2 ^ 64
  x3

/-- `Simulator::next_random()`: advance the generator and scale into `[0,1]`
by `u64::MAX`. -/
noncomputable def Simulator.nextRandom (sim : Simulator) : ℝ × Simulator :=
  let x := xorshift64 sim.rng_state
  ((x : ℝ) / ((2 ^ 64 - 1 : ℕ) : ℝ), { sim with rng_state := x })

/-- The inline Y matrix of the executor (`CY`). -/
noncomputable def yMatrix : Fin 2 → Fin 2 → ℂ := ![![0, -Complex.I], ![Complex.I, 0]]

/-- The inline Z matrix of the executor (`CZ`). -/
noncomputable def zMatrix : Fin 2 → Fin 2 → ℂ := ![![1, 0], ![0, -1]]

/-- The inline H matrix of the executor (`CH`, `apply_ccx`). -/
noncomputable def hMatrix : Fin 2 → Fin 2 → ℂ :=
  ![![(invSqrt2 : ℂ), (invSqrt2 : ℂ)], ![(invSqrt2 : ℂ), -(invSqrt2 : ℂ)]]

/-- The T matrix of `apply_ccx`. -/
noncomputable def tMatrix : Fin 2 → Fin 2 → ℂ := ![![1, 0], ![0, fromPolar 1 (Real.pi / 4)]]

/-- The T-dagger matrix of `apply_ccx`. -/
noncomputable def tdgMatrix : Fin 2 → Fin 2 → ℂ :=
  ![![1, 0], ![0, fromPolar 1 (-(Real.pi / 4))]]

/-- The `[[1,0],[0,i]]` phase (S) matrix applied at the end of `apply_ccx`. -/
noncomputable def sMatrix : Fin 2 → Fin 2 → ℂ := ![![1, 0], ![0, Complex.I]]

/-- The phase matrix of the `CP` branch. -/
noncomputable def cpMatrix (θ : ℝ) : Fin 2 → Fin 2 → ℂ := ![![1, 0], ![0, fromPolar 1 θ]]

/-- The fixed 4×4 SWAP permutation matrix. -/
noncomputable def swapMatrix : Fin 4 → Fin 4 → ℂ :=
  ![![1, 0, 0, 0], ![0, 0, 1, 0], ![0, 1, 0, 0], ![0, 0, 0, 1]]

/-- `Simulator::apply_ccx`: the hardcoded Toffoli decomposition, reproduced
operation for operation in the order of the source. -/
noncomputable def applyCcx (n c1 c2 t : ℕ) (a : ℕ → ℂ) : ℕ → ℂ :=
  let a1 := applySingle n t hMatrix a
  let a2 := applyControlled n c2 t xMatrix a1
  let a3 := applySingle n t tdgMatrix a2
  let a4 := applyControlled n c1 t xMatrix a3
  let a5 := applySingle n t tMatrix a4
  let a6 := applyControlled n c2 t xMatrix a5
  let a7 := applySingle n t tdgMatrix a6
  let a8 := applyControlled n c1 t xMatrix a7
  let a9 := applySingle n c2 tMatrix a8
  let a10 := applySingle n t tMatrix a9
  let a11 := applySingle n t hMatrix a10
  let a12 := applyControlled n c1 c2 xMatrix a11
  let a13 := applySingle n c2 tdgMatrix a12
  let a14 := applyControlled n c1 c2 xMatrix a13
  let a15 := applySingle n c1 tMatrix a14
  applySingle n c2 sMatrix a15

/-- `Simulator::apply_cswap`: `CNOT(t2,t1) · CCX(control,t1,t2) · CNOT(t2,t1)`. -/
noncomputable def applyCswap (n control t1 t2 : ℕ) (a : ℕ → ℂ) : ℕ → ℂ :=
  let b1 := applyControlled n t2 t1 xMatrix a
  let b2 := applyCcx n control t1 t2 b1
  applyControlled n t2 t1 xMatrix b2

/-- `Simulator::apply_instruction`.  The Rust code indexes `qubits[k]` /
`clbits[0]` directly (panicking when absent); here the access is modelled
with `getD _ 0`, and the theorems that depend on qubit positions assume the
well-formedness the circuit builder guarantees. -/
noncomputable def applyInstruction (sim : Simulator) (n : ℕ) (a : ℕ → ℂ)
    (bits : List ℕ) (inst : Instruction) :
    Except QuasarError ((ℕ → ℂ) × List ℕ × Simulator) :=
  match inst.gate.gate_type with
  | .I | .X | .Y | .Z | .H | .S | .Sdg | .T | .Tdg | .Rx | .Ry | .Rz | .P | .U =>
    match inst.gate.matrix2x2 with
    | some m => .ok (applySingle n (inst.qubits.getD 0 0) m a, bits, sim)
    | Option.none => .error (.notSupported "gate has no 2x2 matrix")
  | .CX => .ok (applyControlled n (inst.qubits.getD 0 0) (inst.qubits.getD 1 0)
      xMatrix a, bits, sim)
  | .CY => .ok (applyControlled n (inst.qubits.getD 0 0) (inst.qubits.getD 1 0)
      yMatrix a, bits, sim)
  | .CZ => .ok (applyControlled n (inst.qubits.getD 0 0) (inst.qubits.getD 1 0)
      zMatrix a, bits, sim)
  | .CH => .ok (applyControlled n (inst.qubits.getD 0 0) (inst.qubits.getD 1 0)
      hMatrix a, bits, sim)
  | .CP =>
    match inst.gate.params with
    | .angle θ => .ok (applyControlled n (inst.qubits.getD 0 0)
        (inst.qubits.getD 1 0) (cpMatrix θ) a, bits, sim)
    | _ => .ok (a, bits, sim)
  | .Swap => .ok (applyTwo n (inst.qubits.getD 0 0) (inst.qubits.getD 1 0)
      swapMatrix a, bits, sim)
  | .CCX => .ok (applyCcx n (inst.qubits.getD 0 0) (inst.qubits.getD 1 0)
      (inst.qubits.getD 2 0) a, bits, sim)
  | .CSwap => .ok (applyCswap n (inst.qubits.getD 0 0) (inst.qubits.getD 1 0)
      (inst.qubits.getD 2 0) a, bits, sim)
  | .Measure =>
    let rs := sim.nextRandom
    let m := measure n (inst.qubits.getD 0 0) rs.1 a
    let bits' := if inst.clbits ≠ [] then bits.set (inst.clbits.getD 0 0) m.1 else bits
    .ok (m.2, bits', rs.2)
  | .Reset =>
    let rs := sim.nextRandom
    .ok (reset n (inst.qubits.getD 0 0) rs.1 a, bits, rs.2)
  | .Barrier => .ok (a, bits, sim)
  | _ => .error (.notSupported "gate type not implemented")

/-- The instruction loop shared by `run` / `run_with_measurements`. -/
noncomputable def execInstrs (sim : Simulator) (n : ℕ) (a : ℕ → ℂ) (bits : List ℕ) :
    List Instruction → Except QuasarError ((ℕ → ℂ) × List ℕ × Simulator)
  | [] => .ok (a, bits, sim)
  | inst :: rest =>
    match applyInstruction sim n a bits inst with
    | .error e => .error e
    | .ok (a', bits', sim') => execInstrs sim' n a' bits' rest

/-- `Simulator::run_from_state`. -/
noncomputable def Simulator.runFromState (sim : Simulator) (c : Circuit) (sn : ℕ)
    (a : ℕ → ℂ) : Except QuasarError ((ℕ → ℂ) × Simulator) :=
  if sn ≠ c.num_qubits then .error (.qubitMismatch c.num_qubits sn)
  else
    match execInstrs sim c.num_qubits a (List.replicate c.num_clbits 0)
        c.instructions with
    | .error e => .error e
    | .ok (a', _, sim') => .ok (a', sim')

/-- `Simulator::run`: execute from `|0…0⟩`. -/
noncomputable def Simulator.run (sim : Simulator) (c : Circuit) :
    Except QuasarError ((ℕ → ℂ) × Simulator) :=
  sim.runFromState c c.num_qubits initState

/-- `Simulator::run_with_measurements`. -/
noncomputable def Simulator.runWithMeasurements (sim : Simulator) (c : Circuit) :
    Except QuasarError ((ℕ → ℂ) × List ℕ × Simulator) :=
  execInstrs sim c.num_qubits initState (List.replicate c.num_clbits 0)
    c.instructions

/-- `MeasurementResult::bitstring`: classical bits rendered as '0'/'1'. -/
def bitstring (bits : List ℕ) : List Char :=
  bits.map (fun b => if b = 0 then '0' else '1')

/-- The shot loop of `Simulator::sample`, accumulating the histogram as a
count function (the `HashMap` entry `or_insert(0) += 1`). -/
noncomputable def sampleLoop (c : Circuit) :
    ℕ → Simulator → (List Char → ℕ) → Except QuasarError ((List Char → ℕ) × Simulator)
  | 0, sim, counts => .ok (counts, sim)
  | shots + 1, sim, counts =>
    match sim.runWithMeasurements c with
    | .error e => .error e
    | .ok (_, m, sim') =>
      sampleLoop c shots sim'
        (fun s => if s = bitstring m then counts s + 1 else counts s)

/-- `Simulator::sample(circuit, shots)`: reset the generator to the stored
seed when one was supplied, then rerun the whole circuit once per shot. -/
noncomputable def Simulator.sample (sim : Simulator) (c : Circuit) (shots : ℕ) :
    Except QuasarError ((List Char → ℕ) × Simulator) :=
  let sim0 :=
    match sim.seed with
    | some s => { sim with rng_state := s }
    | Option.none => sim
  sampleLoop c shots sim0 (fun _ => 0)


/-! ## Derived notions used by the verification -/

/-- An elementary operation of a composite-gate decomposition: a single-qubit
matrix application or a controlled one. -/
inductive ElemOp where
  | single (q : ℕ) (M : Fin 2 → Fin 2 → ℂ)
  | controlled (c t : ℕ) (M : Fin 2 → Fin 2 → ℂ)

/-- Apply one elementary operation to the amplitude array. -/
noncomputable def applyElem (n : ℕ) (a : ℕ → ℂ) : ElemOp → (ℕ → ℂ)
  | .single q M => applySingle n q M a
  | .controlled c t M => applyControlled n c t M a

/-- The elementary-operation sequence of `Simulator::apply_ccx`, listed in
source order. -/
noncomputable def ccxSeq (c1 c2 t : ℕ) : List ElemOp :=
  [.single t hMatrix, .controlled c2 t xMatrix, .single t tdgMatrix,
   .controlled c1 t xMatrix, .single t tMatrix, .controlled c2 t xMatrix,
   .single t tdgMatrix, .controlled c1 t xMatrix, .single c2 tMatrix,
   .single t tMatrix, .single t hMatrix, .controlled c1 c2 xMatrix,
   .single c2 tdgMatrix, .controlled c1 c2 xMatrix, .single c1 tMatrix,
   .single c2 sMatrix]

/-- An instruction with no implemented application path, or a parametrized
single-qubit gate whose parameters do not match its declared shape. -/
def badInst (inst : Instruction) : Prop :=
  inst.gate.gate_type = .ISwap ∨ inst.gate.gate_type = .SqrtSwap ∨
    inst.gate.gate_type = .CU ∨
    ((inst.gate.gate_type = .Rx ∨ inst.gate.gate_type = .Ry ∨
        inst.gate.gate_type = .Rz ∨ inst.gate.gate_type = .P) ∧
      ∀ θ : ℝ, inst.gate.params ≠ .angle θ) ∨
    (inst.gate.gate_type = .U ∧ ∀ x y z : ℝ, inst.gate.params ≠ .angles3 x y z)

/-- Column-orthonormality of a 2×2 matrix (`M† M = I`). -/
def IsUnitary2 (M : Fin 2 → Fin 2 → ℂ) : Prop :=
  conj (M 0 0) * M 0 0 + conj (M 1 0) * M 1 0 = 1 ∧
    conj (M 0 1) * M 0 1 + conj (M 1 1) * M 1 1 = 1 ∧
    conj (M 0 0) * M 0 1 + conj (M 1 0) * M 1 1 = 0

/-- Total probability mass `Σ_i |a i|²` over the `2^n` basis states. -/
noncomputable def normSum (n : ℕ) (a : ℕ → ℂ) : ℝ :=
  ∑ i in Finset.range (2 ^ n), Complex.normSq (a i)

/-- A circuit containing neither `Measure` nor `Reset` instructions. -/
def unitaryOnly (c : Circuit) : Prop :=
  ∀ inst ∈ c.instructions,
    inst.gate.gate_type ≠ .Measure ∧ inst.gate.gate_type ≠ .Reset

/-- All qubit positions an instruction can read are within range (the
invariant the circuit builder guarantees, §3 of the design). -/
def qubitsOk (c : Circuit) : Prop :=
  ∀ inst ∈ c.instructions, ∀ k, k < 3 → inst.qubits.getD k 0 < c.num_qubits

/-- The sub-basis slot permutation realized by the SWAP matrix (1 ↔ 2). -/
def swapK (k : Fin 4) : Fin 4 := if k = 1 then 2 else if k = 2 then 1 else k

/-- The basis-index permutation realized by SWAP on qubits `q0`, `q1`. -/
def swapPerm (q0 q1 j : ℕ) : ℕ :=
  quadIdx (2 ^ q0) (2 ^ q1) (clearBits q0 q1 j) (swapK (classOf q0 q1 j))

/-! ## Theorems -/

/-! ## Bit-arithmetic toolkit

Helper lemmas about the index-mask arithmetic (`i & (1 << q)`,
`i | (1 << q)`, `i ^ (1 << q)`) used by every kernel loop. -/

lemma and_two_pow_eq_zero_iff (i q : ℕ) : i &&& 2 ^ q = 0 ↔ i.testBit q = false := by
  constructor
  · intro h
    have h' := congrArg (fun x => Nat.testBit x q) h
    simpa [Nat.testBit_and, Nat.testBit_two_pow_self, Nat.zero_testBit] using h'
  · intro h
    apply Nat.eq_of_testBit_eq
    intro b
    simp only [Nat.testBit_and, Nat.testBit_two_pow, Nat.zero_testBit]
    by_cases hb : q = b
    · subst hb; simp [h]
    · simp [hb]

lemma and_two_pow_ne_zero_iff (i q : ℕ) : i &&& 2 ^ q ≠ 0 ↔ i.testBit q = true := by
  rw [Ne, and_two_pow_eq_zero_iff]
  simp

lemma or_two_pow_testBit_self (i q : ℕ) : (i ||| 2 ^ q).testBit q = true := by
  simp [Nat.testBit_or, Nat.testBit_two_pow_self]

lemma or_two_pow_testBit_of_ne (i q b : ℕ) (h : b ≠ q) :
    (i ||| 2 ^ q).testBit b = i.testBit b := by
  simp [Nat.testBit_or, Nat.testBit_two_pow_of_ne (Ne.symm h)]

lemma xor_two_pow_testBit_self (i q : ℕ) : (i ^^^ 2 ^ q).testBit q = !(i.testBit q) := by
  simp [Nat.testBit_xor, Nat.testBit_two_pow_self]

lemma xor_two_pow_testBit_of_ne (i q b : ℕ) (h : b ≠ q) :
    (i ^^^ 2 ^ q).testBit b = i.testBit b := by
  simp [Nat.testBit_xor, Nat.testBit_two_pow_of_ne (Ne.symm h)]

lemma or_two_pow_inj (i j q : ℕ) (hi : i &&& 2 ^ q = 0) (hj : j &&& 2 ^ q = 0)
    (h : i ||| 2 ^ q = j ||| 2 ^ q) : i = j := by
  rw [and_two_pow_eq_zero_iff] at hi hj
  apply Nat.eq_of_testBit_eq
  intro b
  by_cases hb : b = q
  · subst hb; rw [hi, hj]
  · have := congrArg (fun x => Nat.testBit x b) h
    simpa [or_two_pow_testBit_of_ne _ _ _ hb] using this

lemma or_xor_two_pow (i q : ℕ) (hi : i &&& 2 ^ q = 0) : (i ||| 2 ^ q) ^^^ 2 ^ q = i := by
  rw [and_two_pow_eq_zero_iff] at hi
  apply Nat.eq_of_testBit_eq
  intro b
  by_cases hb : b = q
  · subst hb
    rw [xor_two_pow_testBit_self, or_two_pow_testBit_self, hi]
    rfl
  · rw [xor_two_pow_testBit_of_ne _ _ _ hb, or_two_pow_testBit_of_ne _ _ _ hb]

lemma xor_two_pow_and (j q : ℕ) (hj : j &&& 2 ^ q ≠ 0) : (j ^^^ 2 ^ q) &&& 2 ^ q = 0 := by
  rw [and_two_pow_ne_zero_iff] at hj
  rw [and_two_pow_eq_zero_iff, xor_two_pow_testBit_self, hj]
  rfl

lemma xor_or_two_pow (j q : ℕ) (hj : j &&& 2 ^ q ≠ 0) : (j ^^^ 2 ^ q) ||| 2 ^ q = j := by
  rw [and_two_pow_ne_zero_iff] at hj
  apply Nat.eq_of_testBit_eq
  intro b
  by_cases hb : b = q
  · subst hb; rw [or_two_pow_testBit_self, hj]
  · rw [or_two_pow_testBit_of_ne _ _ _ hb, xor_two_pow_testBit_of_ne _ _ _ hb]

lemma ne_or_two_pow (i q : ℕ) (hi : i &&& 2 ^ q = 0) : i ≠ i ||| 2 ^ q := by
  intro h
  rw [and_two_pow_eq_zero_iff] at hi
  have := or_two_pow_testBit_self i q
  rw [← h, hi] at this
  exact Bool.false_ne_true this

lemma ne_of_and_two_pow (i j q : ℕ) (hi : i &&& 2 ^ q = 0) (hj : j &&& 2 ^ q ≠ 0) :
    i ≠ j := by
  intro h; subst h; exact hj hi

lemma or_two_pow_and_ne (i q : ℕ) : (i ||| 2 ^ q) &&& 2 ^ q ≠ 0 := by
  rw [and_two_pow_ne_zero_iff]
  exact or_two_pow_testBit_self i q

lemma or_two_pow_lt (i q n : ℕ) (hi : i < 2 ^ n) (hq : q < n) : i ||| 2 ^ q < 2 ^ n :=
  Nat.or_lt_two_pow hi (Nat.pow_lt_pow_right one_lt_two hq)

lemma xor_two_pow_lt (i q n : ℕ) (hi : i < 2 ^ n) (hq : q < n) : i ^^^ 2 ^ q < 2 ^ n :=
  Nat.xor_lt_two_pow hi (Nat.pow_lt_pow_right one_lt_two hq)

/-- A bit of a different position is not changed by `||| 2^q`. -/
lemma or_two_pow_and_other (i q q' : ℕ) (h : q' ≠ q) :
    (i ||| 2 ^ q) &&& 2 ^ q' = i &&& 2 ^ q' := by
  by_cases hb : i.testBit q' = true
  · have h1 : (i ||| 2 ^ q) &&& 2 ^ q' ≠ 0 := by
      rw [and_two_pow_ne_zero_iff, or_two_pow_testBit_of_ne _ _ _ h]; exact hb
    have h2 : i &&& 2 ^ q' ≠ 0 := by rw [and_two_pow_ne_zero_iff]; exact hb
    -- both are equal to 2 ^ q' : `x &&& 2^q'` is 0 or 2^q'
    have e1 : (i ||| 2 ^ q) &&& 2 ^ q' = 2 ^ q' := by
      apply Nat.eq_of_testBit_eq
      intro b
      by_cases hbq : b = q'
      · subst hbq
        simp [Nat.testBit_and, or_two_pow_testBit_of_ne _ _ _ h, hb,
          Nat.testBit_two_pow_self]
      · simp [Nat.testBit_and, Nat.testBit_two_pow_of_ne (Ne.symm hbq)]
    have e2 : i &&& 2 ^ q' = 2 ^ q' := by
      apply Nat.eq_of_testBit_eq
      intro b
      by_cases hbq : b = q'
      · subst hbq; simp [Nat.testBit_and, hb, Nat.testBit_two_pow_self]
      · simp [Nat.testBit_and, Nat.testBit_two_pow_of_ne (Ne.symm hbq)]
    rw [e1, e2]
  · have hb' : i.testBit q' = false := by simpa using hb
    have e1 : (i ||| 2 ^ q) &&& 2 ^ q' = 0 := by
      rw [and_two_pow_eq_zero_iff, or_two_pow_testBit_of_ne _ _ _ h]; exact hb'
    have e2 : i &&& 2 ^ q' = 0 := by rw [and_two_pow_eq_zero_iff]; exact hb'
    rw [e1, e2]

/-- A bit of a different position is not changed by `^^^ 2^q`. -/
lemma xor_two_pow_and_other (i q q' : ℕ) (h : q' ≠ q) :
    (i ^^^ 2 ^ q) &&& 2 ^ q' = i &&& 2 ^ q' := by
  by_cases hb : i.testBit q' = true
  · have e1 : (i ^^^ 2 ^ q) &&& 2 ^ q' = 2 ^ q' := by
      apply Nat.eq_of_testBit_eq
      intro b
      by_cases hbq : b = q'
      · subst hbq
        simp [Nat.testBit_and, xor_two_pow_testBit_of_ne _ _ _ h, hb,
          Nat.testBit_two_pow_self]
      · simp [Nat.testBit_and, Nat.testBit_two_pow_of_ne (Ne.symm hbq)]
    have e2 : i &&& 2 ^ q' = 2 ^ q' := by
      apply Nat.eq_of_testBit_eq
      intro b
      by_cases hbq : b = q'
      · subst hbq; simp [Nat.testBit_and, hb, Nat.testBit_two_pow_self]
      · simp [Nat.testBit_and, Nat.testBit_two_pow_of_ne (Ne.symm hbq)]
    rw [e1, e2]
  · have hb' : i.testBit q' = false := by simpa using hb
    have e1 : (i ^^^ 2 ^ q) &&& 2 ^ q' = 0 := by
      rw [and_two_pow_eq_zero_iff, xor_two_pow_testBit_of_ne _ _ _ h]; exact hb'
    have e2 : i &&& 2 ^ q' = 0 := by rw [and_two_pow_eq_zero_iff]; exact hb'
    rw [e1, e2]

lemma singleStep_eq_pairStep (mask : ℕ) (M : Fin 2 → Fin 2 → ℂ) :
    singleStep mask M = pairStep mask (fun i => i &&& mask = 0) M := by
  funext a i
  simp only [singleStep, pairStep]

lemma controlledStep_eq_pairStep (cm tm : ℕ) (M : Fin 2 → Fin 2 → ℂ) :
    controlledStep cm tm M = pairStep tm (fun i => i &&& cm ≠ 0 ∧ i &&& tm = 0) M := by
  funext a i
  simp only [controlledStep, pairStep]

/-- Pointwise characterization of folding `pairStep` over a duplicate-free
list of loop indices: every index `j` whose bit `q` is 0 is rewritten (from
the *original* array) exactly when `C j` holds and `j` was visited; every
index whose bit `q` is 1 is rewritten exactly when its partner was; nothing
else changes. -/
lemma foldl_pairStep (q : ℕ) (C : ℕ → Prop) [DecidablePred C]
    (hC : ∀ i, C i → i &&& 2 ^ q = 0) (M : Fin 2 → Fin 2 → ℂ) :
    ∀ (L : List ℕ), L.Nodup → ∀ (a : ℕ → ℂ) (j : ℕ),
      (L.foldl (pairStep (2 ^ q) C M) a) j =
        if j &&& 2 ^ q = 0 then
          (if C j ∧ j ∈ L then M 0 0 * a j + M 0 1 * a (j ||| 2 ^ q) else a j)
        else
          (if C (j ^^^ 2 ^ q) ∧ (j ^^^ 2 ^ q) ∈ L then
            M 1 0 * a (j ^^^ 2 ^ q) + M 1 1 * a j else a j) := by
  intro L
  induction L with
  | nil => intro _ a j; simp
  | cons i L ih =>
    intro hnd a j
    have hiL : i ∉ L := (List.nodup_cons.mp hnd).1
    have hndL : L.Nodup := (List.nodup_cons.mp hnd).2
    rw [List.foldl_cons]
    by_cases hCi : C i
    · -- the head performs a pair update
      have hi : i &&& 2 ^ q = 0 := hC i hCi
      have hii : i ≠ i ||| 2 ^ q := ne_or_two_pow i q hi
      set v0 := M 0 0 * a i + M 0 1 * a (i ||| 2 ^ q) with hv0
      set v1 := M 1 0 * a i + M 1 1 * a (i ||| 2 ^ q) with hv1
      have hstep : pairStep (2 ^ q) C M a i =
          Function.update (Function.update a i v0) (i ||| 2 ^ q) v1 := by
        simp [pairStep, hCi]
      rw [hstep, ih hndL]
      set a' := Function.update (Function.update a i v0) (i ||| 2 ^ q) v1 with ha'
      have ha'_at : ∀ x, a' x =
          if x = i ||| 2 ^ q then v1 else if x = i then v0 else a x := by
        intro x
        by_cases h1 : x = i ||| 2 ^ q
        · simp [ha', h1]
        · by_cases h2 : x = i
          · subst h2; simp [ha', Function.update_noteq h1, h1]
          · simp [ha', Function.update_noteq h1, Function.update_noteq h2, h1, h2]
      by_cases hj : j &&& 2 ^ q = 0
      · -- j lives on the bit-0 side
        rw [if_pos hj, if_pos hj]
        by_cases hjmem : C j ∧ j ∈ L
        · have hji : j ≠ i := fun h => hiL (h ▸ hjmem.2)
          have h1 : a' j = a j := by
            rw [ha'_at]
            have hne1 : j ≠ i ||| 2 ^ q :=
              ne_of_and_two_pow j (i ||| 2 ^ q) q hj (or_two_pow_and_ne i q)
            simp [hne1, hji]
          have h2 : a' (j ||| 2 ^ q) = a (j ||| 2 ^ q) := by
            rw [ha'_at]
            have hne1 : j ||| 2 ^ q ≠ i ||| 2 ^ q := fun h =>
              hji (or_two_pow_inj j i q hj hi h)
            have hne2 : j ||| 2 ^ q ≠ i := fun h =>
              (or_two_pow_and_ne j q) (h ▸ hi)
            simp [hne1, hne2]
          have hjmem' : C j ∧ j ∈ i :: L := ⟨hjmem.1, List.mem_cons_of_mem i hjmem.2⟩
          rw [if_pos hjmem, if_pos hjmem', h1, h2]
        · by_cases hji : j = i
          · subst hji
            have hmem' : C j ∧ j ∈ j :: L := ⟨hCi, List.mem_cons_self j L⟩
            have h1 : a' j = v0 := by
              rw [ha'_at]
              rw [if_neg hii, if_pos rfl]
            rw [if_neg hjmem, if_pos hmem', h1, hv0]
          · have h1 : a' j = a j := by
              rw [ha'_at]
              have hne1 : j ≠ i ||| 2 ^ q :=
                ne_of_and_two_pow j (i ||| 2 ^ q) q hj (or_two_pow_and_ne i q)
              simp [hne1, hji]
            have hmem' : ¬(C j ∧ j ∈ i :: L) := by
              rintro ⟨hCj, hmem⟩
              rcases List.mem_cons.mp hmem with h | h
              · exact hji h
              · exact hjmem ⟨hCj, h⟩
            rw [if_neg hjmem, if_neg hmem', h1]
      · -- j lives on the bit-1 side; its partner is j ^^^ 2^q
        rw [if_neg hj, if_neg hj]
        set p := j ^^^ 2 ^ q with hp
        have hpand : p &&& 2 ^ q = 0 := xor_two_pow_and j q hj
        have hpor : p ||| 2 ^ q = j := xor_or_two_pow j q hj
        by_cases hpmem : C p ∧ p ∈ L
        · have hpi : p ≠ i := fun h => hiL (h ▸ hpmem.2)
          have h1 : a' p = a p := by
            rw [ha'_at]
            have hne1 : p ≠ i ||| 2 ^ q :=
              ne_of_and_two_pow p (i ||| 2 ^ q) q hpand (or_two_pow_and_ne i q)
            simp [hne1, hpi]
          have h2 : a' j = a j := by
            rw [ha'_at]
            have hne1 : j ≠ i ||| 2 ^ q := by
              rw [← hpor]
              exact fun h => hpi (or_two_pow_inj p i q hpand hi h)
            have hne2 : j ≠ i := fun h => hj (h ▸ hi)
            simp [hne1, hne2]
          have hpmem' : C p ∧ p ∈ i :: L := ⟨hpmem.1, List.mem_cons_of_mem i hpmem.2⟩
          rw [if_pos hpmem, if_pos hpmem', h1, h2]
        · by_cases hpi : p = i
          · have hmem' : C p ∧ p ∈ i :: L := by
              rw [hpi]; exact ⟨hpi ▸ hCi, List.mem_cons_self i L⟩
            have hji' : j = i ||| 2 ^ q := by rw [← hpor, hpi]
            have h1 : a' j = v1 := by rw [ha'_at, if_pos hji']
            rw [if_neg hpmem, if_pos hmem', h1, hv1, hpi, hji']
          · have h1 : a' j = a j := by
              rw [ha'_at]
              have hne1 : j ≠ i ||| 2 ^ q := by
                rw [← hpor]
                exact fun h => hpi (or_two_pow_inj p i q hpand hi h)
              have hne2 : j ≠ i := fun h => hj (h ▸ hi)
              simp [hne1, hne2]
            have hmem' : ¬(C p ∧ p ∈ i :: L) := by
              rintro ⟨hCp, hmem⟩
              rcases List.mem_cons.mp hmem with h | h
              · exact hpi h
              · exact hpmem ⟨hCp, h⟩
            rw [if_neg hpmem, if_neg hmem', h1]
    · -- the head does nothing
      have hstep : pairStep (2 ^ q) C M a i = a := by simp [pairStep, hCi]
      rw [hstep, ih hndL]
      by_cases hj : j &&& 2 ^ q = 0
      · rw [if_pos hj, if_pos hj]
        have hiff : (C j ∧ j ∈ L) ↔ (C j ∧ j ∈ i :: L) := by
          constructor
          · rintro ⟨hCj, hmem⟩; exact ⟨hCj, List.mem_cons_of_mem i hmem⟩
          · rintro ⟨hCj, hmem⟩
            rcases List.mem_cons.mp hmem with h | h
            · exact absurd (h ▸ hCj) hCi
            · exact ⟨hCj, h⟩
        exact if_congr hiff rfl rfl
      · rw [if_neg hj, if_neg hj]
        have hiff : (C (j ^^^ 2 ^ q) ∧ (j ^^^ 2 ^ q) ∈ L) ↔
            (C (j ^^^ 2 ^ q) ∧ (j ^^^ 2 ^ q) ∈ i :: L) := by
          constructor
          · rintro ⟨hCp, hmem⟩; exact ⟨hCp, List.mem_cons_of_mem i hmem⟩
          · rintro ⟨hCp, hmem⟩
            rcases List.mem_cons.mp hmem with h | h
            · exact absurd (h ▸ hCp) hCi
            · exact ⟨hCp, h⟩
        exact if_congr hiff rfl rfl

/-- Pointwise characterization of `apply_single` for an in-range qubit:
bit-`q`-is-0 indices and their partners receive the matrix action computed
from the original amplitudes; everything else is unchanged. -/
lemma applySingle_char (n q : ℕ) (hq : q < n) (M : Fin 2 → Fin 2 → ℂ) (a : ℕ → ℂ)
    (j : ℕ) :
    applySingle n q M a j =
      if j < 2 ^ n then
        if j &&& 2 ^ q = 0 then M 0 0 * a j + M 0 1 * a (j ||| 2 ^ q)
        else M 1 0 * a (j ^^^ 2 ^ q) + M 1 1 * a j
      else a j := by
  rw [applySingle, singleStep_eq_pairStep,
    foldl_pairStep q _ (fun i h => h) M _ (List.nodup_range _) a j]
  by_cases hj : j &&& 2 ^ q = 0
  · rw [if_pos hj]
    by_cases hlt : j < 2 ^ n
    · rw [if_pos ⟨hj, List.mem_range.mpr hlt⟩, if_pos hlt, if_pos hj]
    · rw [if_neg (fun h => hlt (List.mem_range.mp h.2)), if_neg hlt]
  · rw [if_neg hj]
    have hpq : (j ^^^ 2 ^ q) &&& 2 ^ q = 0 := xor_two_pow_and j q hj
    by_cases hlt : j < 2 ^ n
    · rw [if_pos ⟨hpq, List.mem_range.mpr (xor_two_pow_lt j q n hlt hq)⟩,
        if_pos hlt, if_neg hj]
    · have hno : ¬((j ^^^ 2 ^ q) &&& 2 ^ q = 0 ∧ (j ^^^ 2 ^ q) ∈ List.range (2 ^ n)) := by
        rintro ⟨-, hmem⟩
        have hplt := List.mem_range.mp hmem
        exact hlt (xor_or_two_pow j q hj ▸ or_two_pow_lt _ q n hplt hq)
      rw [if_neg hno, if_neg hlt]

/-- Pointwise characterization of `apply_controlled`: the matrix acts on the
target-bit pairs whose control bit is 1; amplitudes with control bit 0 (and
everything out of range) are untouched. -/
lemma applyControlled_char (n c t : ℕ) (ht : t < n) (hct : c ≠ t)
    (M : Fin 2 → Fin 2 → ℂ) (a : ℕ → ℂ) (j : ℕ) :
    applyControlled n c t M a j =
      if j < 2 ^ n then
        if j &&& 2 ^ c ≠ 0 then
          if j &&& 2 ^ t = 0 then M 0 0 * a j + M 0 1 * a (j ||| 2 ^ t)
          else M 1 0 * a (j ^^^ 2 ^ t) + M 1 1 * a j
        else a j
      else a j := by
  rw [applyControlled, controlledStep_eq_pairStep,
    foldl_pairStep t _ (fun i h => h.2) M _ (List.nodup_range _) a j]
  by_cases hj : j &&& 2 ^ t = 0
  · rw [if_pos hj]
    by_cases hlt : j < 2 ^ n
    · by_cases hcb : j &&& 2 ^ c ≠ 0
      · rw [if_pos ⟨⟨hcb, hj⟩, List.mem_range.mpr hlt⟩, if_pos hlt, if_pos hcb,
          if_pos hj]
      · rw [if_neg (fun h => hcb h.1.1), if_pos hlt, if_neg hcb]
    · rw [if_neg (fun h => hlt (List.mem_range.mp h.2)), if_neg hlt]
  · rw [if_neg hj]
    have hpt : (j ^^^ 2 ^ t) &&& 2 ^ t = 0 := xor_two_pow_and j t hj
    have hpc : (j ^^^ 2 ^ t) &&& 2 ^ c = j &&& 2 ^ c := xor_two_pow_and_other j t c hct
    by_cases hlt : j < 2 ^ n
    · by_cases hcb : j &&& 2 ^ c ≠ 0
      · rw [if_pos ⟨⟨by rw [hpc]; exact hcb, hpt⟩,
          List.mem_range.mpr (xor_two_pow_lt j t n hlt ht)⟩, if_pos hlt, if_pos hcb,
          if_neg hj]
      · rw [if_neg (fun h => hcb (hpc ▸ h.1.1)), if_pos hlt, if_neg hcb]
    · have hno : ¬(((j ^^^ 2 ^ t) &&& 2 ^ c ≠ 0 ∧ (j ^^^ 2 ^ t) &&& 2 ^ t = 0) ∧
          (j ^^^ 2 ^ t) ∈ List.range (2 ^ n)) := by
        rintro ⟨-, hmem⟩
        have hplt := List.mem_range.mp hmem
        exact hlt (xor_or_two_pow j t hj ▸ or_two_pow_lt _ t n hplt ht)
      rw [if_neg hno, if_neg hlt]

/-- Pointwise characterization of the collapse loop of `measure`. -/
lemma foldl_collapseStep (mask result : ℕ) (inv : ℝ) :
    ∀ (L : List ℕ), L.Nodup → ∀ (a : ℕ → ℂ) (j : ℕ),
      (L.foldl (collapseStep mask result inv) a) j =
        if j ∈ L then
          (if (result = 0 ∧ j &&& mask ≠ 0) ∨ (result = 1 ∧ ¬j &&& mask ≠ 0) then 0
           else a j * (inv : ℂ))
        else a j := by
  intro L
  induction L with
  | nil => intro _ a j; simp
  | cons i L ih =>
    intro hnd a j
    have hiL : i ∉ L := (List.nodup_cons.mp hnd).1
    have hndL : L.Nodup := (List.nodup_cons.mp hnd).2
    rw [List.foldl_cons]
    have hstep : collapseStep mask result inv a i =
        Function.update a i
          (if (result = 0 ∧ i &&& mask ≠ 0) ∨ (result = 1 ∧ ¬i &&& mask ≠ 0) then 0
           else a i * (inv : ℂ)) := by
      unfold collapseStep
      by_cases hcond : (result = 0 ∧ i &&& mask ≠ 0) ∨ (result = 1 ∧ ¬i &&& mask ≠ 0)
      · rw [if_pos hcond, if_pos hcond]
      · rw [if_neg hcond, if_neg hcond]
    rw [hstep, ih hndL]
    by_cases hjL : j ∈ L
    · have hji : j ≠ i := fun h => hiL (h ▸ hjL)
      rw [if_pos hjL, if_pos (List.mem_cons_of_mem i hjL), Function.update_noteq hji]
    · by_cases hji : j = i
      · subst hji
        rw [if_neg hjL, if_pos (List.mem_cons_self j L), Function.update_same]
      · rw [if_neg hjL, Function.update_noteq hji,
          if_neg (fun h => (List.mem_cons.mp h).elim hji hjL)]

lemma quadIdx_zero (m0 m1 b : ℕ) : quadIdx m0 m1 b 0 = b := rfl

lemma quadIdx_one (m0 m1 b : ℕ) : quadIdx m0 m1 b 1 = b ||| m0 := rfl

lemma quadIdx_two (m0 m1 b : ℕ) : quadIdx m0 m1 b 2 = b ||| m1 := rfl

lemma quadIdx_three (m0 m1 b : ℕ) : quadIdx m0 m1 b 3 = b ||| m0 ||| m1 := rfl


lemma testBit_clearBits (q0 q1 : ℕ) (hq : q0 ≠ q1) (x c : ℕ) :
    (clearBits q0 q1 x).testBit c =
      if c = q0 then false else if c = q1 then false else x.testBit c := by
  simp only [clearBits, Nat.testBit_xor, Nat.testBit_and, Nat.testBit_two_pow]
  by_cases h0 : c = q0
  · rw [if_pos h0]
    have d1 : decide (q0 = c) = true := by rw [h0]; simp
    have d2 : decide (q1 = c) = false := by
      rw [h0]
      exact decide_eq_false (Ne.symm hq)
    rw [d1, d2]
    cases hx : x.testBit c <;> simp [hx]
  · by_cases h1 : c = q1
    · have d1 : decide (q0 = c) = false := by
        rw [h1]
        exact decide_eq_false hq
      have d2 : decide (q1 = c) = true := by rw [h1]; simp
      rw [if_neg h0, if_pos h1, d1, d2]
      cases hx : x.testBit c <;> simp [hx]
    · have d1 : decide (q0 = c) = false := decide_eq_false (fun h => h0 h.symm)
      have d2 : decide (q1 = c) = false := decide_eq_false (fun h => h1 h.symm)
      rw [if_neg h0, if_neg h1, d1, d2]
      cases hx : x.testBit c <;> simp [hx]

lemma clearBits_and_left (q0 q1 : ℕ) (hq : q0 ≠ q1) (x : ℕ) :
    clearBits q0 q1 x &&& 2 ^ q0 = 0 := by
  rw [and_two_pow_eq_zero_iff, testBit_clearBits q0 q1 hq, if_pos rfl]

lemma clearBits_and_right (q0 q1 : ℕ) (hq : q0 ≠ q1) (x : ℕ) :
    clearBits q0 q1 x &&& 2 ^ q1 = 0 := by
  rw [and_two_pow_eq_zero_iff, testBit_clearBits q0 q1 hq, if_neg (Ne.symm hq),
    if_pos rfl]

/-- Any quadruple member has its own base as `clearBits`. -/
lemma clearBits_quadIdx (q0 q1 : ℕ) (hq : q0 ≠ q1) (b : ℕ)
    (hb0 : b &&& 2 ^ q0 = 0) (hb1 : b &&& 2 ^ q1 = 0) (k : Fin 4) :
    clearBits q0 q1 (quadIdx (2 ^ q0) (2 ^ q1) b k) = b := by
  have hb0' := (and_two_pow_eq_zero_iff b q0).mp hb0
  have hb1' := (and_two_pow_eq_zero_iff b q1).mp hb1
  have key : ∀ c, c ≠ q0 → c ≠ q1 →
      (quadIdx (2 ^ q0) (2 ^ q1) b k).testBit c = b.testBit c := by
    intro c hc0 hc1
    unfold quadIdx
    split
    · rfl
    · split
      · rw [or_two_pow_testBit_of_ne _ _ _ hc0]
      · split
        · rw [or_two_pow_testBit_of_ne _ _ _ hc1]
        · rw [or_two_pow_testBit_of_ne _ _ _ hc1, or_two_pow_testBit_of_ne _ _ _ hc0]
  apply Nat.eq_of_testBit_eq
  intro c
  rw [testBit_clearBits q0 q1 hq]
  by_cases h0 : c = q0
  · subst h0; rw [if_pos rfl, hb0']
  · by_cases h1 : c = q1
    · subst h1; rw [if_neg h0, if_pos rfl, hb1']
    · rw [if_neg h0, if_neg h1, key c h0 h1]


lemma quadIdx_and_bits (q0 q1 : ℕ) (hq : q0 ≠ q1) (b : ℕ)
    (hb0 : b &&& 2 ^ q0 = 0) (hb1 : b &&& 2 ^ q1 = 0) (k : Fin 4) :
    classOf q0 q1 (quadIdx (2 ^ q0) (2 ^ q1) b k) = k := by
  fin_cases k
  · simp [quadIdx, classOf, hb0, hb1]
  · have h0 : (b ||| 2 ^ q0) &&& 2 ^ q0 ≠ 0 := or_two_pow_and_ne b q0
    have h1 : (b ||| 2 ^ q0) &&& 2 ^ q1 = 0 := by
      rw [or_two_pow_and_other b q0 q1 (Ne.symm hq)]; exact hb1
    simp [quadIdx, classOf, h0, h1]
  · have h0 : (b ||| 2 ^ q1) &&& 2 ^ q0 = 0 := by
      rw [or_two_pow_and_other b q1 q0 hq]; exact hb0
    have h1 : (b ||| 2 ^ q1) &&& 2 ^ q1 ≠ 0 := or_two_pow_and_ne b q1
    simp [quadIdx, classOf, h0, h1]
  · have h0 : (b ||| 2 ^ q0 ||| 2 ^ q1) &&& 2 ^ q0 ≠ 0 := by
      rw [or_two_pow_and_other _ q1 q0 hq]; exact or_two_pow_and_ne b q0
    have h1 : (b ||| 2 ^ q0 ||| 2 ^ q1) &&& 2 ^ q1 ≠ 0 := or_two_pow_and_ne _ q1
    simp [quadIdx, classOf, h0, h1]

/-- Every index is the `classOf`-member of the quadruple of its `clearBits`. -/
lemma quadIdx_clearBits_classOf (q0 q1 : ℕ) (hq : q0 ≠ q1) (j : ℕ) :
    quadIdx (2 ^ q0) (2 ^ q1) (clearBits q0 q1 j) (classOf q0 q1 j) = j := by
  apply Nat.eq_of_testBit_eq
  intro c
  unfold classOf
  by_cases hj0 : j &&& 2 ^ q0 = 0
  · by_cases hj1 : j &&& 2 ^ q1 = 0
    · rw [if_pos hj0, if_pos hj1, quadIdx_zero, testBit_clearBits q0 q1 hq]
      by_cases h0 : c = q0
      · rw [if_pos h0, h0, (and_two_pow_eq_zero_iff j q0).mp hj0]
      · by_cases h1 : c = q1
        · rw [if_neg h0, if_pos h1, h1, (and_two_pow_eq_zero_iff j q1).mp hj1]
        · rw [if_neg h0, if_neg h1]
    · rw [if_pos hj0, if_neg hj1, quadIdx_two]
      by_cases h1 : c = q1
      · rw [h1, or_two_pow_testBit_self, (and_two_pow_ne_zero_iff j q1).mp hj1]
      · rw [or_two_pow_testBit_of_ne _ _ _ h1, testBit_clearBits q0 q1 hq]
        by_cases h0 : c = q0
        · rw [if_pos h0, h0, (and_two_pow_eq_zero_iff j q0).mp hj0]
        · rw [if_neg h0, if_neg h1]
  · by_cases hj1 : j &&& 2 ^ q1 = 0
    · rw [if_neg hj0, if_pos hj1, quadIdx_one]
      by_cases h0 : c = q0
      · rw [h0, or_two_pow_testBit_self, (and_two_pow_ne_zero_iff j q0).mp hj0]
      · rw [or_two_pow_testBit_of_ne _ _ _ h0, testBit_clearBits q0 q1 hq]
        by_cases h1 : c = q1
        · rw [if_neg h0, if_pos h1, h1, (and_two_pow_eq_zero_iff j q1).mp hj1]
        · rw [if_neg h0, if_neg h1]
    · rw [if_neg hj0, if_neg hj1, quadIdx_three]
      by_cases h1 : c = q1
      · rw [h1, or_two_pow_testBit_self, (and_two_pow_ne_zero_iff j q1).mp hj1]
      · rw [or_two_pow_testBit_of_ne _ _ _ h1]
        by_cases h0 : c = q0
        · rw [h0, or_two_pow_testBit_self, (and_two_pow_ne_zero_iff j q0).mp hj0]
        · rw [or_two_pow_testBit_of_ne _ _ _ h0, testBit_clearBits q0 q1 hq,
            if_neg h0, if_neg h1]

lemma clearBits_lt (q0 q1 x n : ℕ) (hx : x < 2 ^ n) : clearBits q0 q1 x < 2 ^ n := by
  have h0 : x &&& 2 ^ q0 < 2 ^ n := lt_of_le_of_lt (Nat.and_le_left) hx
  have h1 : x &&& 2 ^ q1 < 2 ^ n := lt_of_le_of_lt (Nat.and_le_left) hx
  exact Nat.xor_lt_two_pow (Nat.xor_lt_two_pow hx h0) h1

lemma quadIdx_lt (q0 q1 b n : ℕ) (hq0 : q0 < n) (hq1 : q1 < n) (hb : b < 2 ^ n)
    (k : Fin 4) : quadIdx (2 ^ q0) (2 ^ q1) b k < 2 ^ n := by
  unfold quadIdx
  split
  · exact hb
  · split
    · exact or_two_pow_lt b q0 n hb hq0
    · split
      · exact or_two_pow_lt b q1 n hb hq1
      · exact or_two_pow_lt _ q1 n (or_two_pow_lt b q0 n hb hq0) hq1

/-- Characterization of folding `twoStep` over a duplicate-free list of loop
indices: the quadruple with base `b` is rewritten (all four members, each
from the *original* amplitudes, exactly once) when its base was visited, and
untouched otherwise. -/
lemma foldl_twoStep (q0 q1 : ℕ) (hq : q0 ≠ q1) (M : Fin 4 → Fin 4 → ℂ) :
    ∀ (L : List ℕ), L.Nodup → ∀ (a : ℕ → ℂ) (b : ℕ),
      b &&& 2 ^ q0 = 0 → b &&& 2 ^ q1 = 0 → ∀ (k : Fin 4),
      (L.foldl (twoStep (2 ^ q0) (2 ^ q1) M) a) (quadIdx (2 ^ q0) (2 ^ q1) b k) =
        if b ∈ L then quadRow M k (2 ^ q0) (2 ^ q1) a b
        else a (quadIdx (2 ^ q0) (2 ^ q1) b k) := by
  intro L
  induction L with
  | nil => intro _ a b hb0 hb1 k; simp
  | cons i L ih =>
    intro hnd a b hb0 hb1 k
    have hiL : i ∉ L := (List.nodup_cons.mp hnd).1
    have hndL : L.Nodup := (List.nodup_cons.mp hnd).2
    rw [List.foldl_cons]
    by_cases hCi : i &&& 2 ^ q0 = 0 ∧ i &&& 2 ^ q1 = 0
    · -- the head rewrites the quadruple with base i
      have write_clear : ∀ k' : Fin 4,
          clearBits q0 q1 (quadIdx (2 ^ q0) (2 ^ q1) i k') = i :=
        fun k' => clearBits_quadIdx q0 q1 hq i hCi.1 hCi.2 k'
      have hmiss : ∀ x, clearBits q0 q1 x ≠ i →
          twoStep (2 ^ q0) (2 ^ q1) M a i x = a x := by
        intro x hx
        have n0 : x ≠ i := fun h => hx (by
          rw [h, ← quadIdx_zero (2 ^ q0) (2 ^ q1) i]; exact write_clear 0)
        have n1 : x ≠ i ||| 2 ^ q0 := fun h => hx (by
          rw [h, ← quadIdx_one (2 ^ q0) (2 ^ q1) i]; exact write_clear 1)
        have n2 : x ≠ i ||| 2 ^ q1 := fun h => hx (by
          rw [h, ← quadIdx_two (2 ^ q0) (2 ^ q1) i]; exact write_clear 2)
        have n3 : x ≠ i ||| 2 ^ q0 ||| 2 ^ q1 := fun h => hx (by
          rw [h, ← quadIdx_three (2 ^ q0) (2 ^ q1) i]; exact write_clear 3)
        simp only [twoStep, if_pos hCi]
        rw [Function.update_noteq n3, Function.update_noteq n2,
          Function.update_noteq n1, Function.update_noteq n0]
      by_cases hbL : b ∈ L
      · have hbi : b ≠ i := fun h => hiL (h ▸ hbL)
        rw [ih hndL _ b hb0 hb1 k, if_pos hbL, if_pos (List.mem_cons_of_mem i hbL)]
        have hreads : ∀ k' : Fin 4,
            twoStep (2 ^ q0) (2 ^ q1) M a i (quadIdx (2 ^ q0) (2 ^ q1) b k') =
              a (quadIdx (2 ^ q0) (2 ^ q1) b k') := fun k' =>
          hmiss _ (by rw [clearBits_quadIdx q0 q1 hq b hb0 hb1 k']; exact hbi)
        simp only [quadRow, hreads]
      · by_cases hbi : b = i
        · subst hbi
          have hdist : ∀ k1 k2 : Fin 4, k1 ≠ k2 →
              quadIdx (2 ^ q0) (2 ^ q1) b k1 ≠ quadIdx (2 ^ q0) (2 ^ q1) b k2 :=
            fun k1 k2 hne h => hne (by
              rw [← quadIdx_and_bits q0 q1 hq b hb0 hb1 k1,
                ← quadIdx_and_bits q0 q1 hq b hb0 hb1 k2, h])
          have d01 : b ≠ b ||| 2 ^ q0 := hdist 0 1 (by decide)
          have d02 : b ≠ b ||| 2 ^ q1 := hdist 0 2 (by decide)
          have d03 : b ≠ b ||| 2 ^ q0 ||| 2 ^ q1 := hdist 0 3 (by decide)
          have d12 : b ||| 2 ^ q0 ≠ b ||| 2 ^ q1 := hdist 1 2 (by decide)
          have d13 : b ||| 2 ^ q0 ≠ b ||| 2 ^ q0 ||| 2 ^ q1 := hdist 1 3 (by decide)
          have d23 : b ||| 2 ^ q1 ≠ b ||| 2 ^ q0 ||| 2 ^ q1 := hdist 2 3 (by decide)
          have hhit0 : twoStep (2 ^ q0) (2 ^ q1) M a b (quadIdx (2 ^ q0) (2 ^ q1) b 0) =
              quadRow M 0 (2 ^ q0) (2 ^ q1) a b := by
            simp only [twoStep, if_pos hCi, quadIdx_zero]
            rw [Function.update_noteq d03, Function.update_noteq d02,
              Function.update_noteq d01, Function.update_same]
            rfl
          have hhit1 : twoStep (2 ^ q0) (2 ^ q1) M a b (quadIdx (2 ^ q0) (2 ^ q1) b 1) =
              quadRow M 1 (2 ^ q0) (2 ^ q1) a b := by
            simp only [twoStep, if_pos hCi, quadIdx_one]
            rw [Function.update_noteq d13, Function.update_noteq d12,
              Function.update_same]
            rfl
          have hhit2 : twoStep (2 ^ q0) (2 ^ q1) M a b (quadIdx (2 ^ q0) (2 ^ q1) b 2) =
              quadRow M 2 (2 ^ q0) (2 ^ q1) a b := by
            simp only [twoStep, if_pos hCi, quadIdx_two]
            rw [Function.update_noteq d23, Function.update_same]
            rfl
          have hhit3 : twoStep (2 ^ q0) (2 ^ q1) M a b (quadIdx (2 ^ q0) (2 ^ q1) b 3) =
              quadRow M 3 (2 ^ q0) (2 ^ q1) a b := by
            simp only [twoStep, if_pos hCi, quadIdx_three]
            rw [Function.update_same]
            rfl
          rw [ih hndL _ b hb0 hb1 k, if_neg hbL, if_pos (List.mem_cons_self b L)]
          fin_cases k
          · exact hhit0
          · exact hhit1
          · exact hhit2
          · exact hhit3
        · rw [ih hndL _ b hb0 hb1 k, if_neg hbL,
            if_neg (fun h => (List.mem_cons.mp h).elim hbi hbL)]
          exact hmiss _ (by rw [clearBits_quadIdx q0 q1 hq b hb0 hb1 k]; exact hbi)
    · -- the head does nothing
      have hstep : twoStep (2 ^ q0) (2 ^ q1) M a i = a := by simp [twoStep, hCi]
      rw [hstep, ih hndL a b hb0 hb1 k]
      have hiff : b ∈ L ↔ b ∈ i :: L :=
        ⟨List.mem_cons_of_mem i, fun h => (List.mem_cons.mp h).elim
          (fun e => absurd ⟨e ▸ hb0, e ▸ hb1⟩ hCi) id⟩
      exact if_congr hiff rfl rfl

/-- `apply_two` on the quadruple with in-range base `b`: member `k` of the
quadruple receives row `k` of the matrix applied to the old quadruple. -/
lemma applyTwo_quad (n q0 q1 : ℕ) (hq : q0 ≠ q1) (M : Fin 4 → Fin 4 → ℂ)
    (a : ℕ → ℂ) (b : ℕ) (hb0 : b &&& 2 ^ q0 = 0) (hb1 : b &&& 2 ^ q1 = 0)
    (hblt : b < 2 ^ n) (k : Fin 4) :
    applyTwo n q0 q1 M a (quadIdx (2 ^ q0) (2 ^ q1) b k) =
      quadRow M k (2 ^ q0) (2 ^ q1) a b := by
  rw [applyTwo, foldl_twoStep q0 q1 hq M _ (List.nodup_range _) a b hb0 hb1 k,
    if_pos (List.mem_range.mpr hblt)]

/-- The inline X matrix of the executor. -/
lemma xMatrix_eq : xMatrix = ![![0, 1], ![1, 0]] := rfl


lemma measure_fst (n q : ℕ) (r : ℝ) (a : ℕ → ℂ) :
    (measure n q r a).1 = if r < prob0 n q a then 0 else 1 := rfl

lemma measure_snd (n q : ℕ) (r : ℝ) (a : ℕ → ℂ) :
    (measure n q r a).2 = (List.range (2 ^ n)).foldl
      (collapseStep (2 ^ q) (measure n q r a).1
        (1 / Real.sqrt (if (measure n q r a).1 = 0 then prob0 n q a
          else 1 - prob0 n q a))) a := rfl

/-- Claim C1: for every state vector, qubit `q < num_qubits` and 2×2 matrix
`M`, `apply_single` replaces each pair `(amp[i], amp[i|1<<q])` with bit `q`
of `i` zero by `(M00·amp[i] + M01·amp[i1], M10·amp[i] + M11·amp[i1])`,
computed from the original amplitudes (so each qualifying pair is updated
exactly once, driven by its bit-`q`-zero member), and leaves every amplitude
outside the touched pairs unchanged. -/
theorem claim_C1 (n q : ℕ) (hq : q < n) (M : Fin 2 → Fin 2 → ℂ) (a : ℕ → ℂ)
    (j : ℕ) :
    applySingle n q M a j =
      if j < 2 ^ n then
        if j &&& 2 ^ q = 0 then M 0 0 * a j + M 0 1 * a (j ||| 2 ^ q)
        else M 1 0 * a (j ^^^ 2 ^ q) + M 1 1 * a j
      else a j :=
  applySingle_char n q hq M a j

theorem claim_C1_witness :
    0 < 1 ∧
      (applySingle 1 0 xMatrix initState 0 =
        if 0 < 2 ^ 1 then
          if 0 &&& 2 ^ 0 = 0 then
            xMatrix 0 0 * initState 0 + xMatrix 0 1 * initState (0 ||| 2 ^ 0)
          else xMatrix 1 0 * initState (0 ^^^ 2 ^ 0) + xMatrix 1 1 * initState 0
        else initState 0) :=
  ⟨Nat.zero_lt_one, claim_C1 1 0 Nat.zero_lt_one xMatrix initState 0⟩

/-- Claim C4: for control `c` and target `t` (both in range, `c ≠ t`),
`apply_controlled` applies `M` exactly to the pairs that differ only in bit
`t` and have bit `c` equal to 1; every amplitude with control bit 0 (and
everything out of range) is unchanged. -/
theorem claim_C4 (n c t : ℕ) (hc : c < n) (ht : t < n) (hct : c ≠ t)
    (M : Fin 2 → Fin 2 → ℂ) (a : ℕ → ℂ) (j : ℕ) :
    applyControlled n c t M a j =
      if j < 2 ^ n then
        if j &&& 2 ^ c ≠ 0 then
          if j &&& 2 ^ t = 0 then M 0 0 * a j + M 0 1 * a (j ||| 2 ^ t)
          else M 1 0 * a (j ^^^ 2 ^ t) + M 1 1 * a j
        else a j
      else a j :=
  applyControlled_char n c t ht hct M a j

theorem claim_C4_witness :
    (0 < 2 ∧ 1 < 2 ∧ (0 : ℕ) ≠ 1) ∧
      (applyControlled 2 0 1 xMatrix initState 1 =
        if 1 < 2 ^ 2 then
          if 1 &&& 2 ^ 0 ≠ 0 then
            if 1 &&& 2 ^ 1 = 0 then
              xMatrix 0 0 * initState 1 + xMatrix 0 1 * initState (1 ||| 2 ^ 1)
            else xMatrix 1 0 * initState (1 ^^^ 2 ^ 1) + xMatrix 1 1 * initState 1
          else initState 1
        else initState 1) :=
  ⟨⟨by norm_num, by norm_num, by norm_num⟩,
    claim_C4 2 0 1 (by norm_num) (by norm_num) (by norm_num) xMatrix initState 1⟩

/-- Claim C2: `measure` computes `p0 = Σ_{i, bit q = 0} |amp[i]|²`, returns
0 when `r < p0` and 1 otherwise, zeroes every amplitude whose bit `q`
disagrees with the outcome, and multiplies every remaining amplitude by
`1/sqrt(norm)` with `norm = p0` for outcome 0 and `1 − p0` for outcome 1. -/
theorem claim_C2 (n q : ℕ) (hq : q < n) (r : ℝ) (hr0 : 0 ≤ r) (hr1 : r < 1)
    (a : ℕ → ℂ) (j : ℕ) (hj : j < 2 ^ n) :
    ((measure n q r a).1 = if r < prob0 n q a then 0 else 1) ∧
    ((measure n q r a).2 j =
      if ((measure n q r a).1 = 0 ∧ j &&& 2 ^ q ≠ 0) ∨
          ((measure n q r a).1 = 1 ∧ j &&& 2 ^ q = 0) then 0
      else a j * ((1 / Real.sqrt (if (measure n q r a).1 = 0 then prob0 n q a
          else 1 - prob0 n q a) : ℝ) : ℂ)) := by
  refine ⟨measure_fst n q r a, ?_⟩
  rw [measure_snd n q r a,
    foldl_collapseStep (2 ^ q) (measure n q r a).1 _ _ (List.nodup_range _) a j,
    if_pos (List.mem_range.mpr hj)]
  exact if_congr (by rw [not_not]) rfl rfl

theorem claim_C2_witness :
    (0 < 1 ∧ (0 : ℝ) ≤ 0 ∧ (0 : ℝ) < 1 ∧ 0 < 2 ^ 1) ∧
    (((measure 1 0 0 initState).1 = if (0 : ℝ) < prob0 1 0 initState then 0 else 1) ∧
      ((measure 1 0 0 initState).2 0 =
        if ((measure 1 0 0 initState).1 = 0 ∧ 0 &&& 2 ^ 0 ≠ 0) ∨
            ((measure 1 0 0 initState).1 = 1 ∧ 0 &&& 2 ^ 0 = 0) then 0
        else initState 0 *
          ((1 / Real.sqrt (if (measure 1 0 0 initState).1 = 0 then prob0 1 0 initState
              else 1 - prob0 1 0 initState) : ℝ) : ℂ))) :=
  ⟨⟨Nat.zero_lt_one, le_rfl, zero_lt_one, by norm_num⟩,
    claim_C2 1 0 Nat.zero_lt_one 0 le_rfl zero_lt_one initState 0 (by norm_num)⟩

/-- Claim C5 (amended): the executor applies a CCX (Toffoli) instruction as
a fixed **16**-step sequence of H, T, T†, S (via the `[[1,0],[0,i]]` phase
matrix) and controlled-X elementary operations on the two controls and the
target, reproduced step for step in source order. -/
theorem claim_C5 (n c1 c2 t : ℕ) (a : ℕ → ℂ) :
    applyCcx n c1 c2 t a = (ccxSeq c1 c2 t).foldl (applyElem n) a ∧
    (ccxSeq c1 c2 t).length = 16 :=
  ⟨rfl, rfl⟩

/-- Claim C5 counterexample: the decomposition sequence the executor runs
for CCX on qubits (0,1,2) has 16 steps, not 15 as the claim states. -/
theorem claim_C5_cex : (ccxSeq 0 1 2).length = 16 ∧ (ccxSeq 0 1 2).length ≠ 15 :=
  ⟨rfl, by decide⟩

/-- Claim C9 (amended): in `apply_two(q0, q1, M)` the quadruple at indices
`{i, i|mask0, i|mask1, i|mask0|mask1}` (bits `q0`,`q1` of `i` zero) is
replaced by `M` applied to `(a00,a01,a10,a11)` read at those indices in that
order; the amplitude at `i|mask0` occupies sub-basis position "01" (vector
slot 1, row 1 of `M`), i.e. `q1` is the more significant bit of the 2-bit
sub-basis and `q0` the less significant. -/
theorem claim_C9 (n q0 q1 : ℕ) (h0 : q0 < n) (h1 : q1 < n) (hne : q0 ≠ q1)
    (M : Fin 4 → Fin 4 → ℂ) (a : ℕ → ℂ) (i : ℕ) (hi : i < 2 ^ n)
    (hb0 : i &&& 2 ^ q0 = 0) (hb1 : i &&& 2 ^ q1 = 0) :
    (applyTwo n q0 q1 M a i =
        M 0 0 * a i + M 0 1 * a (i ||| 2 ^ q0) + M 0 2 * a (i ||| 2 ^ q1) +
          M 0 3 * a (i ||| 2 ^ q0 ||| 2 ^ q1)) ∧
    (applyTwo n q0 q1 M a (i ||| 2 ^ q0) =
        M 1 0 * a i + M 1 1 * a (i ||| 2 ^ q0) + M 1 2 * a (i ||| 2 ^ q1) +
          M 1 3 * a (i ||| 2 ^ q0 ||| 2 ^ q1)) ∧
    (applyTwo n q0 q1 M a (i ||| 2 ^ q1) =
        M 2 0 * a i + M 2 1 * a (i ||| 2 ^ q0) + M 2 2 * a (i ||| 2 ^ q1) +
          M 2 3 * a (i ||| 2 ^ q0 ||| 2 ^ q1)) ∧
    (applyTwo n q0 q1 M a (i ||| 2 ^ q0 ||| 2 ^ q1) =
        M 3 0 * a i + M 3 1 * a (i ||| 2 ^ q0) + M 3 2 * a (i ||| 2 ^ q1) +
          M 3 3 * a (i ||| 2 ^ q0 ||| 2 ^ q1)) :=
  ⟨applyTwo_quad n q0 q1 hne M a i hb0 hb1 hi 0,
   applyTwo_quad n q0 q1 hne M a i hb0 hb1 hi 1,
   applyTwo_quad n q0 q1 hne M a i hb0 hb1 hi 2,
   applyTwo_quad n q0 q1 hne M a i hb0 hb1 hi 3⟩

theorem claim_C9_witness :
    (0 < 2 ∧ 1 < 2 ∧ (0 : ℕ) ≠ 1 ∧ 0 < 2 ^ 2 ∧ 0 &&& 2 ^ 0 = 0 ∧ 0 &&& 2 ^ 1 = 0) ∧
    ((applyTwo 2 0 1 swapMatrix initState 0 =
        swapMatrix 0 0 * initState 0 + swapMatrix 0 1 * initState (0 ||| 2 ^ 0) +
          swapMatrix 0 2 * initState (0 ||| 2 ^ 1) +
          swapMatrix 0 3 * initState (0 ||| 2 ^ 0 ||| 2 ^ 1)) ∧
      (applyTwo 2 0 1 swapMatrix initState (0 ||| 2 ^ 0) =
        swapMatrix 1 0 * initState 0 + swapMatrix 1 1 * initState (0 ||| 2 ^ 0) +
          swapMatrix 1 2 * initState (0 ||| 2 ^ 1) +
          swapMatrix 1 3 * initState (0 ||| 2 ^ 0 ||| 2 ^ 1)) ∧
      (applyTwo 2 0 1 swapMatrix initState (0 ||| 2 ^ 1) =
        swapMatrix 2 0 * initState 0 + swapMatrix 2 1 * initState (0 ||| 2 ^ 0) +
          swapMatrix 2 2 * initState (0 ||| 2 ^ 1) +
          swapMatrix 2 3 * initState (0 ||| 2 ^ 0 ||| 2 ^ 1)) ∧
      (applyTwo 2 0 1 swapMatrix initState (0 ||| 2 ^ 0 ||| 2 ^ 1) =
        swapMatrix 3 0 * initState 0 + swapMatrix 3 1 * initState (0 ||| 2 ^ 0) +
          swapMatrix 3 2 * initState (0 ||| 2 ^ 1) +
          swapMatrix 3 3 * initState (0 ||| 2 ^ 0 ||| 2 ^ 1))) :=
  ⟨⟨by norm_num, by norm_num, by norm_num, by norm_num, by decide, by decide⟩,
    claim_C9 2 0 1 (by norm_num) (by norm_num) (by norm_num) swapMatrix initState 0
      (by norm_num) (by decide) (by decide)⟩

/-- Claim C9 counterexample: with `q0 = 0`, `q1 = 1` and amplitudes
`a i = i`, the amplitude written at index `i|mask0 = 1` is row **1** of the
matrix applied to the quadruple (value 2 for the SWAP matrix, which picks
`a10`), not row 2 (value 1, which picks `a01`) as the claim's "q0 is the
more significant sub-basis bit" ordering would require. -/
theorem claim_C9_cex :
    applyTwo 2 0 1 swapMatrix (fun i => (i : ℂ)) 1 = 2 ∧
    swapMatrix 2 0 * (0 : ℂ) + swapMatrix 2 1 * 1 + swapMatrix 2 2 * 2 +
        swapMatrix 2 3 * 3 = (1 : ℂ) ∧
    (2 : ℂ) ≠ 1 := by
  refine ⟨?_, ?_, by norm_num⟩
  · have h := applyTwo_quad 2 0 1 (by norm_num) swapMatrix (fun i => (i : ℂ)) 0
      (by decide) (by decide) (by norm_num) 1
    have e0 : quadIdx (2 ^ 0) (2 ^ 1) 0 0 = 0 := by decide
    have e1 : quadIdx (2 ^ 0) (2 ^ 1) 0 1 = 1 := by decide
    have e2 : quadIdx (2 ^ 0) (2 ^ 1) 0 2 = 2 := by decide
    have e3 : quadIdx (2 ^ 0) (2 ^ 1) 0 3 = 3 := by decide
    rw [e1] at h
    rw [h]
    simp only [quadRow, e0, e1, e2, e3]
    simp [swapMatrix]
  · simp only [swapMatrix]
    norm_num

lemma pow2_and_pred (k : ℕ) : 2 ^ k &&& (2 ^ k - 1) = 0 := by
  apply Nat.eq_of_testBit_eq
  intro b
  rw [Nat.testBit_and, Nat.zero_testBit, Nat.testBit_two_pow,
    Nat.testBit_two_pow_sub_one]
  by_cases hb : k = b
  · subst hb; simp
  · simp [hb]

lemma and_pred_pow2 : ∀ d : ℕ, d ≠ 0 → d &&& (d - 1) = 0 → ∃ k, d = 2 ^ k := by
  intro d
  induction d using Nat.strong_induction_on with
  | _ d ih =>
    intro hd h
    have hbits : ∀ b, (d.testBit b && (d - 1).testBit b) = false := by
      intro b
      have hb := congrArg (fun x => Nat.testBit x b) h
      simpa [Nat.testBit_and, Nat.zero_testBit] using hb
    rcases Nat.even_or_odd d with he | ho
    · obtain ⟨m, hm⟩ := he
      have hm2 : d = 2 * m := by omega
      have hm0 : m ≠ 0 := by omega
      have hand : m &&& (m - 1) = 0 := by
        apply Nat.eq_of_testBit_eq
        intro b
        rw [Nat.testBit_and, Nat.zero_testBit]
        have h1 : d.testBit (b + 1) = m.testBit b := by
          rw [Nat.testBit_succ]
          congr 1
          omega
        have h2 : (d - 1).testBit (b + 1) = (m - 1).testBit b := by
          rw [Nat.testBit_succ]
          congr 1
          omega
        have hb := hbits (b + 1)
        rw [h1, h2] at hb
        exact hb
      obtain ⟨k, hk⟩ := ih m (by omega) hm0 hand
      exact ⟨k + 1, by rw [hm2, hk]; ring⟩
    · obtain ⟨m, hm⟩ := ho
      have hmz : ∀ b, m.testBit b = false := by
        intro b
        have h1 : d.testBit (b + 1) = m.testBit b := by
          rw [Nat.testBit_succ]
          congr 1
          omega
        have h2 : (d - 1).testBit (b + 1) = m.testBit b := by
          rw [Nat.testBit_succ]
          congr 1
          omega
        have hb := hbits (b + 1)
        rw [h1, h2, Bool.and_self] at hb
        exact hb
      have hm0 : m = 0 :=
        Nat.eq_of_testBit_eq (fun b => by rw [hmz b, Nat.zero_testBit])
      exact ⟨0, by omega⟩

lemma trailingZeros_two_pow : ∀ k : ℕ, trailingZeros (2 ^ k) = k := by
  intro k
  induction k with
  | zero =>
    show trailingZeros 1 = 0
    rw [trailingZeros]
    norm_num
  | succ k ih =>
    obtain ⟨y, hy⟩ : ∃ y, 2 ^ (k + 1) = y + 1 :=
      ⟨2 ^ (k + 1) - 1, by have := pow_pos (show (0 : ℕ) < 2 by norm_num) (k + 1); omega⟩
    have heven : (y + 1) % 2 = 0 := by
      have h2 : 2 ^ (k + 1) = 2 ^ k * 2 := pow_succ 2 k
      omega
    have hdiv : (y + 1) / 2 = 2 ^ k := by
      have h2 : 2 ^ (k + 1) = 2 ^ k * 2 := pow_succ 2 k
      omega
    rw [hy, trailingZeros, if_neg (by omega), hdiv, ih]
    omega

/-- Claim C7 (amended): `from_amplitudes` checks the dimension first: every
list whose length is not a power of two (including the empty list) fails
with the dimension error — even when the norm is also off; among
power-of-two-length lists, those whose squared norm differs from 1 by more
than `1e-10` fail with the normalization error, and all others are accepted
with `num_qubits = log2(length)` and exactly the given amplitudes. -/
theorem claim_C7 (amps : List ℂ) :
    ((¬∃ k, amps.length = 2 ^ k) →
      fromAmplitudes amps = .error (.stateDimensionMismatch 0 amps.length)) ∧
    (∀ k, amps.length = 2 ^ k →
      |((amps.map Complex.normSq).sum : ℝ) - 1| > 1e-10 →
      fromAmplitudes amps =
        .error (.stateNotNormalized (Real.sqrt ((amps.map Complex.normSq).sum)))) ∧
    (∀ k, amps.length = 2 ^ k →
      |((amps.map Complex.normSq).sum : ℝ) - 1| ≤ 1e-10 →
      fromAmplitudes amps = .ok ⟨k, amps⟩) := by
  refine ⟨fun hnp => ?_, fun k hk hnorm => ?_, fun k hk hnorm => ?_⟩
  · have hcond : amps.length = 0 ∨ amps.length &&& (amps.length - 1) ≠ 0 := by
      by_cases h0 : amps.length = 0
      · exact Or.inl h0
      · exact Or.inr (fun hz => hnp (and_pred_pow2 _ h0 hz))
    simp only [fromAmplitudes]
    rw [if_pos hcond]
  · have hcond : ¬(amps.length = 0 ∨ amps.length &&& (amps.length - 1) ≠ 0) := by
      rw [hk]
      rintro (h | h)
      · have := pow_pos (show (0 : ℕ) < 2 by norm_num) k
        omega
      · exact h (pow2_and_pred k)
    simp only [fromAmplitudes]
    rw [if_neg hcond, if_pos hnorm]
  · have hcond : ¬(amps.length = 0 ∨ amps.length &&& (amps.length - 1) ≠ 0) := by
      rw [hk]
      rintro (h | h)
      · have := pow_pos (show (0 : ℕ) < 2 by norm_num) k
        omega
      · exact h (pow2_and_pred k)
    simp only [fromAmplitudes]
    rw [if_neg hcond, if_neg (not_lt.mpr hnorm), hk, trailingZeros_two_pow]

theorem claim_C7_witness :
    (([1] : List ℂ).length = 2 ^ 0 ∧
      |((([1] : List ℂ).map Complex.normSq).sum : ℝ) - 1| ≤ 1e-10) ∧
    fromAmplitudes ([1] : List ℂ) = .ok ⟨0, [1]⟩ :=
  ⟨⟨rfl, by norm_num⟩, (claim_C7 [1]).2.2 0 rfl (by norm_num)⟩

/-- Claim C7 counterexample: the list `[1, 1, 1]` has squared norm 3 (off by
2, far beyond the tolerance) yet `from_amplitudes` fails with the
*dimension* error, not the normalization error, because the power-of-two
check runs first. -/
theorem claim_C7_cex :
    |((([1, 1, 1] : List ℂ).map Complex.normSq).sum : ℝ) - 1| > 1e-10 ∧
    fromAmplitudes ([1, 1, 1] : List ℂ) = .error (.stateDimensionMismatch 0 3) := by
  constructor
  · norm_num
  · simp only [fromAmplitudes]
    rw [if_pos (Or.inr (by decide))]
    rfl

lemma applyInstruction_error_shape (sim : Simulator) (n : ℕ) (a : ℕ → ℂ)
    (bits : List ℕ) (inst : Instruction) (e : QuasarError)
    (h : applyInstruction sim n a bits inst = .error e) : ∃ msg, e = .notSupported msg := by
  unfold applyInstruction at h
  split at h
  all_goals try split at h
  all_goals try simp only [Except.error.injEq] at h
  all_goals first
    | exact ⟨_, h.symm⟩
    | exact absurd h (by simp)

/-- Every gate identity with no implemented path fails, and every
wrong-parameter single-qubit gate fails, inside `apply_instruction`. -/
lemma badInst_applyInstruction (sim : Simulator) (n : ℕ) (a : ℕ → ℂ)
    (bits : List ℕ) (inst : Instruction) (hbad : badInst inst) :
    ∃ msg, applyInstruction sim n a bits inst = .error (.notSupported msg) := by
  rcases hbad with h | h | h | ⟨hty, hp⟩ | ⟨hty, hp⟩
  · exact ⟨"gate type not implemented", by simp [applyInstruction, h]⟩
  · exact ⟨"gate type not implemented", by simp [applyInstruction, h]⟩
  · exact ⟨"gate type not implemented", by simp [applyInstruction, h]⟩
  · have hm : inst.gate.matrix2x2 = Option.none := by
      rcases hty with h | h | h | h <;>
        · cases hparams : inst.gate.params with
          | angle θ => exact absurd hparams (hp θ)
          | none => simp [Gate.matrix2x2, h, hparams]
          | angles3 x y z => simp [Gate.matrix2x2, h, hparams]
    refine ⟨"gate has no 2x2 matrix", ?_⟩
    rcases hty with h | h | h | h <;> simp [applyInstruction, h, hm]
  · have hm : inst.gate.matrix2x2 = Option.none := by
      cases hparams : inst.gate.params with
      | angles3 x y z => exact absurd hparams (hp x y z)
      | none => simp [Gate.matrix2x2, hty, hparams]
      | angle θ => simp [Gate.matrix2x2, hty, hparams]
    exact ⟨"gate has no 2x2 matrix", by simp [applyInstruction, hty, hm]⟩

lemma execInstrs_bad (n : ℕ) : ∀ (instrs : List Instruction) (sim : Simulator)
    (a : ℕ → ℂ) (bits : List ℕ),
    (∃ inst ∈ instrs, badInst inst) →
    ∃ msg, execInstrs sim n a bits instrs = .error (.notSupported msg) := by
  intro instrs
  induction instrs with
  | nil => rintro sim a bits ⟨inst, hmem, -⟩; exact absurd hmem (List.not_mem_nil inst)
  | cons inst rest ih =>
    rintro sim a bits ⟨binst, hmem, hb⟩
    cases happ : applyInstruction sim n a bits inst with
    | error e =>
      obtain ⟨msg, hmsg⟩ := applyInstruction_error_shape sim n a bits inst e happ
      exact ⟨msg, by rw [execInstrs, happ, hmsg]⟩
    | ok res =>
      rcases List.mem_cons.mp hmem with heq | hrest
      · subst heq
        obtain ⟨msg, hmsg⟩ := badInst_applyInstruction sim n a bits binst hb
        rw [hmsg] at happ
        exact absurd happ (by simp)
      · obtain ⟨a', bits', sim'⟩ := res
        obtain ⟨msg, hmsg⟩ := ih sim' a' bits' ⟨binst, hrest, hb⟩
        exact ⟨msg, by rw [execInstrs, happ]; exact hmsg⟩

/-- Claim C6 (amended): dispatching an instruction whose gate identity has
no implemented path (iSWAP, √SWAP, CU) or whose Rx/Ry/Rz/P/U gate carries
the wrong parameter variant makes `run`, `run_with_measurements` and
`sample` (with at least one shot) fail with the not-supported error —
*except* a CP instruction missing its angle parameter, which is silently
ignored (the instruction succeeds and changes nothing). -/
theorem claim_C6 (c : Circuit) (sim : Simulator) (shots : ℕ) (hshots : 1 ≤ shots)
    (hbad : ∃ inst ∈ c.instructions, badInst inst)
    (sim2 : Simulator) (n2 : ℕ) (a2 : ℕ → ℂ) (bits2 : List ℕ) (qs cbs : List ℕ) :
    (∃ msg, sim.run c = .error (.notSupported msg)) ∧
    (∃ msg, sim.runWithMeasurements c = .error (.notSupported msg)) ∧
    (∃ msg, sim.sample c shots = .error (.notSupported msg)) ∧
    applyInstruction sim2 n2 a2 bits2 ⟨⟨.CP, .none⟩, qs, cbs⟩ = .ok (a2, bits2, sim2) := by
  obtain ⟨msg, hmsg⟩ := execInstrs_bad c.num_qubits c.instructions sim initState
    (List.replicate c.num_clbits 0) hbad
  refine ⟨⟨msg, ?_⟩, ⟨msg, hmsg⟩, ?_, rfl⟩
  · simp only [Simulator.run, Simulator.runFromState]
    rw [if_neg (fun h => h rfl), hmsg]
  · obtain ⟨k, rfl⟩ : ∃ k, shots = k + 1 := ⟨shots - 1, by omega⟩
    have key : ∀ sim0 : Simulator, ∃ msg',
        sampleLoop c (k + 1) sim0 (fun _ => 0) = .error (.notSupported msg') := by
      intro sim0
      obtain ⟨msg', hmsg'⟩ := execInstrs_bad c.num_qubits c.instructions sim0 initState
        (List.replicate c.num_clbits 0) hbad
      exact ⟨msg', by rw [sampleLoop, Simulator.runWithMeasurements, hmsg']⟩
    simp only [Simulator.sample]
    exact key _

theorem claim_C6_witness :
    (1 ≤ 1 ∧
      (∃ inst ∈ (⟨2, 0, [⟨⟨.ISwap, .none⟩, [0, 1], []⟩]⟩ : Circuit).instructions,
        badInst inst)) ∧
    ((∃ msg, Simulator.new.run ⟨2, 0, [⟨⟨.ISwap, .none⟩, [0, 1], []⟩]⟩ =
        .error (.notSupported msg)) ∧
      (∃ msg, Simulator.new.runWithMeasurements ⟨2, 0, [⟨⟨.ISwap, .none⟩, [0, 1], []⟩]⟩ =
        .error (.notSupported msg)) ∧
      (∃ msg, Simulator.new.sample ⟨2, 0, [⟨⟨.ISwap, .none⟩, [0, 1], []⟩]⟩ 1 =
        .error (.notSupported msg)) ∧
      applyInstruction Simulator.new 1 initState [] ⟨⟨.CP, .none⟩, [0, 1], []⟩ =
        .ok (initState, [], Simulator.new)) :=
  ⟨⟨le_rfl, ⟨⟨⟨.ISwap, .none⟩, [0, 1], []⟩, by simp, Or.inl rfl⟩⟩,
    claim_C6 ⟨2, 0, [⟨⟨.ISwap, .none⟩, [0, 1], []⟩]⟩ Simulator.new 1 le_rfl
      ⟨⟨⟨.ISwap, .none⟩, [0, 1], []⟩, by simp, Or.inl rfl⟩
      Simulator.new 1 initState [] [0, 1] []⟩

/-- Claim C6 counterexample: a CP instruction constructed without its angle
parameter is silently ignored — `run` succeeds and returns the initial state
unchanged instead of failing with the not-supported error. -/
theorem claim_C6_cex :
    Simulator.new.run ⟨1, 0, [⟨⟨.CP, .none⟩, [0, 1], []⟩]⟩ =
      .ok (initState, Simulator.new) := rfl

lemma applyInstruction_seed (sim : Simulator) (n : ℕ) (a : ℕ → ℂ) (bits : List ℕ)
    (inst : Instruction) (a' : ℕ → ℂ) (bits' : List ℕ) (sim' : Simulator)
    (h : applyInstruction sim n a bits inst = .ok (a', bits', sim')) :
    sim'.seed = sim.seed := by
  unfold applyInstruction at h
  split at h
  all_goals try split at h
  all_goals try simp only [Simulator.nextRandom, Except.ok.injEq, Prod.mk.injEq] at h
  all_goals first
    | (obtain ⟨-, -, h3⟩ := h; rw [← h3])
    | simp at h

lemma execInstrs_seed (n : ℕ) : ∀ (instrs : List Instruction) (sim : Simulator)
    (a : ℕ → ℂ) (bits : List ℕ) (a' : ℕ → ℂ) (bits' : List ℕ) (sim' : Simulator),
    execInstrs sim n a bits instrs = .ok (a', bits', sim') → sim'.seed = sim.seed := by
  intro instrs
  induction instrs with
  | nil =>
    intro sim a bits a' bits' sim' h
    simp only [execInstrs, Except.ok.injEq, Prod.mk.injEq] at h
    obtain ⟨-, -, h3⟩ := h
    rw [← h3]
  | cons inst rest ih =>
    intro sim a bits a' bits' sim' h
    cases happ : applyInstruction sim n a bits inst with
    | error e =>
      simp only [execInstrs, happ] at h
      simp at h
    | ok res =>
      obtain ⟨a1, bits1, sim1⟩ := res
      simp only [execInstrs, happ] at h
      rw [ih sim1 a1 bits1 a' bits' sim' h,
        applyInstruction_seed sim n a bits inst a1 bits1 sim1 happ]

lemma sampleLoop_seed (c : Circuit) : ∀ (shots : ℕ) (sim : Simulator)
    (counts h' : List Char → ℕ) (sim' : Simulator),
    sampleLoop c shots sim counts = .ok (h', sim') → sim'.seed = sim.seed := by
  intro shots
  induction shots with
  | zero =>
    intro sim counts h' sim' h
    simp only [sampleLoop, Except.ok.injEq, Prod.mk.injEq] at h
    rw [← h.2]
  | succ k ih =>
    intro sim counts h' sim' h
    cases hr : sim.runWithMeasurements c with
    | error e =>
      simp only [sampleLoop, hr] at h
      simp at h
    | ok res =>
      obtain ⟨st, m, sim1⟩ := res
      simp only [sampleLoop, hr] at h
      rw [ih sim1 _ h' sim' h,
        execInstrs_seed c.num_qubits c.instructions sim initState
          (List.replicate c.num_clbits 0) st m sim1 hr]

/-- Resetting to the stored seed makes `sample` independent of the current
generator state: any simulator whose `seed` field is `some s` samples
exactly like a freshly `with_seed(s)`-constructed one. -/
lemma sample_reset : ∀ (sim : Simulator) (s : ℕ), sim.seed = some s →
    ∀ (c : Circuit) (shots : ℕ),
    sim.sample c shots = (Simulator.withSeed s).sample c shots
  | ⟨sd, rng⟩, s, h, c, shots => by
    have hsd : sd = some s := h
    subst hsd
    rfl

/-- Claim C8: two simulators constructed with the same explicit seed return
equal results from `sample`, and because `sample` resets the generator to
the stored seed before the shot loop, two successive `sample` calls on the
same explicitly-seeded simulator instance return equal histograms. -/
theorem claim_C8 (s : ℕ) (c : Circuit) (shots : ℕ) (sim1 sim2 : Simulator)
    (h1 : sim1 = Simulator.withSeed s) (h2 : sim2 = Simulator.withSeed s)
    (hist1 : List Char → ℕ) (sim1' : Simulator) (hist2 : List Char → ℕ)
    (sim2' : Simulator)
    (hs1 : sim1.sample c shots = .ok (hist1, sim1'))
    (hs2 : sim1'.sample c shots = .ok (hist2, sim2')) :
    sim1.sample c shots = sim2.sample c shots ∧ hist1 = hist2 := by
  subst h1
  subst h2
  refine ⟨rfl, ?_⟩
  have hseed1' : sim1'.seed = some s := by
    have hkept := sampleLoop_seed c shots ⟨some s, s⟩ (fun _ => 0) hist1 sim1' hs1
    exact hkept
  rw [sample_reset sim1' s hseed1' c shots, hs1] at hs2
  simp only [Except.ok.injEq, Prod.mk.injEq] at hs2
  exact hs2.1

theorem claim_C8_witness :
    (Simulator.withSeed 7 = Simulator.withSeed 7 ∧
      (Simulator.withSeed 7).sample ⟨0, 0, []⟩ 1 =
        .ok (fun s => if s = ([] : List Char) then 1 else 0, Simulator.withSeed 7)) ∧
    ((Simulator.withSeed 7).sample ⟨0, 0, []⟩ 1 =
        (Simulator.withSeed 7).sample ⟨0, 0, []⟩ 1 ∧
      (fun s => if s = ([] : List Char) then 1 else 0) =
        (fun s => if s = ([] : List Char) then (1 : ℕ) else 0)) :=
  ⟨⟨rfl, rfl⟩,
    claim_C8 7 ⟨0, 0, []⟩ 1 (Simulator.withSeed 7) (Simulator.withSeed 7) rfl rfl
      (fun s => if s = ([] : List Char) then 1 else 0) (Simulator.withSeed 7)
      (fun s => if s = ([] : List Char) then 1 else 0) (Simulator.withSeed 7) rfl rfl⟩

lemma nextRandom_zero : ∀ (sim : Simulator), sim.rng_state = 0 →
    sim.nextRandom = ((0 : ℝ), sim)
  | ⟨sd, rng⟩, hs => by
    have hr : rng = 0 := hs
    subst hr
    simp [Simulator.nextRandom, show xorshift64 0 = 0 from by decide]

lemma applyInstruction_rng0 (sim : Simulator) (hs : sim.rng_state = 0) (n : ℕ)
    (a : ℕ → ℂ) (bits : List ℕ) (inst : Instruction) (a' : ℕ → ℂ) (bits' : List ℕ)
    (sim' : Simulator) (h : applyInstruction sim n a bits inst = .ok (a', bits', sim')) :
    sim' = sim := by
  unfold applyInstruction at h
  split at h
  all_goals try split at h
  all_goals try rw [nextRandom_zero sim hs] at h
  all_goals try simp only [Except.ok.injEq, Prod.mk.injEq] at h
  all_goals first
    | (obtain ⟨-, -, h3⟩ := h; exact h3.symm)
    | simp at h

lemma execInstrs_rng0 (n : ℕ) : ∀ (instrs : List Instruction) (sim : Simulator),
    sim.rng_state = 0 → ∀ (a : ℕ → ℂ) (bits : List ℕ) (a' : ℕ → ℂ)
    (bits' : List ℕ) (sim' : Simulator),
    execInstrs sim n a bits instrs = .ok (a', bits', sim') → sim' = sim := by
  intro instrs
  induction instrs with
  | nil =>
    intro sim hs a bits a' bits' sim' h
    simp only [execInstrs, Except.ok.injEq, Prod.mk.injEq] at h
    exact h.2.2.symm
  | cons inst rest ih =>
    intro sim hs a bits a' bits' sim' h
    cases happ : applyInstruction sim n a bits inst with
    | error e =>
      simp only [execInstrs, happ] at h
      simp at h
    | ok res =>
      obtain ⟨a1, bits1, sim1⟩ := res
      simp only [execInstrs, happ] at h
      have h1 : sim1 = sim := applyInstruction_rng0 sim hs n a bits inst a1 bits1 sim1 happ
      rw [h1] at h
      exact ih sim hs a1 bits1 a' bits' sim' h

lemma sampleLoop_const (c : Circuit) (sim : Simulator) (st : ℕ → ℂ) (m : List ℕ)
    (hr : sim.runWithMeasurements c = .ok (st, m, sim)) :
    ∀ (shots : ℕ) (counts : List Char → ℕ),
    sampleLoop c shots sim counts =
      .ok (fun s => if s = bitstring m then counts s + shots else counts s, sim) := by
  intro shots
  induction shots with
  | zero =>
    intro counts
    have hfun : (fun s => if s = bitstring m then counts s + 0 else counts s) = counts := by
      funext s
      split <;> simp
    rw [hfun]
    rfl
  | succ k ih =>
    intro counts
    calc sampleLoop c (k + 1) sim counts
        = sampleLoop c k sim
            (fun s => if s = bitstring m then counts s + 1 else counts s) := by
          simp only [sampleLoop, hr]
      _ = .ok (fun s => if s = bitstring m then
            (fun s' => if s' = bitstring m then counts s' + 1 else counts s') s + k
            else (fun s' => if s' = bitstring m then counts s' + 1 else counts s') s,
            sim) := ih _
      _ = .ok (fun s => if s = bitstring m then counts s + (k + 1) else counts s, sim) := by
          have hfun : (fun s => if s = bitstring m then
              (fun s' => if s' = bitstring m then counts s' + 1 else counts s') s + k
              else (fun s' => if s' = bitstring m then counts s' + 1 else counts s') s) =
              (fun s => if s = bitstring m then counts s + (k + 1) else counts s) := by
            funext s
            by_cases hsb : s = bitstring m <;> simp [hsb] <;> omega
          rw [hfun]

/-- Claim C10: the xorshift64 generator has 0 as a fixed point, so a
simulator seeded with 0 draws 0.0 forever; `measure` with draw 0 returns
outcome 0 whenever the marginal probability of 0 is positive; and `sample`
on a 0-seeded simulator puts all shots on the single bitstring produced by
the (deterministic) run. -/
theorem claim_C10 (n q : ℕ) (a : ℕ → ℂ) (hp : 0 < prob0 n q a)
    (c : Circuit) (shots : ℕ) (st : ℕ → ℂ) (m : List ℕ) (simEnd : Simulator)
    (hrun : (Simulator.withSeed 0).runWithMeasurements c = .ok (st, m, simEnd)) :
    xorshift64 0 = 0 ∧
    (Simulator.withSeed 0).nextRandom = ((0 : ℝ), Simulator.withSeed 0) ∧
    (measure n q 0 a).1 = 0 ∧
    (Simulator.withSeed 0).sample c shots =
      .ok (fun s => if s = bitstring m then shots else 0, Simulator.withSeed 0) := by
  refine ⟨by decide, nextRandom_zero (Simulator.withSeed 0) rfl, ?_, ?_⟩
  · rw [measure_fst, if_pos hp]
  · have hend : simEnd = Simulator.withSeed 0 :=
      execInstrs_rng0 c.num_qubits c.instructions (Simulator.withSeed 0) rfl initState
        (List.replicate c.num_clbits 0) st m simEnd hrun
    rw [hend] at hrun
    have hloop := sampleLoop_const c (Simulator.withSeed 0) st m hrun shots (fun _ => 0)
    calc (Simulator.withSeed 0).sample c shots
        = sampleLoop c shots (Simulator.withSeed 0) (fun _ => 0) := rfl
      _ = .ok (fun s => if s = bitstring m then (fun _ : List Char => (0 : ℕ)) s + shots
            else (fun _ : List Char => (0 : ℕ)) s, Simulator.withSeed 0) := hloop
      _ = .ok (fun s => if s = bitstring m then shots else 0, Simulator.withSeed 0) := by
          have hfun : (fun s => if s = bitstring m then (fun _ : List Char => (0 : ℕ)) s + shots
              else (fun _ : List Char => (0 : ℕ)) s) =
              (fun s : List Char => if s = bitstring m then shots else 0) := by
            funext s
            by_cases hsb : s = bitstring m <;> simp [hsb]
          rw [hfun]

theorem claim_C10_witness :
    (0 < prob0 1 0 initState ∧
      (Simulator.withSeed 0).runWithMeasurements ⟨1, 0, []⟩ =
        .ok (initState, [], Simulator.withSeed 0)) ∧
    (xorshift64 0 = 0 ∧
      (Simulator.withSeed 0).nextRandom = ((0 : ℝ), Simulator.withSeed 0) ∧
      (measure 1 0 0 initState).1 = 0 ∧
      (Simulator.withSeed 0).sample ⟨1, 0, []⟩ 3 =
        .ok (fun s => if s = bitstring [] then 3 else 0, Simulator.withSeed 0)) := by
  have hp : 0 < prob0 1 0 initState := by
    have hval : prob0 1 0 initState = 1 := by
      rw [prob0, show (2 : ℕ) ^ 1 = 2 by norm_num, Finset.sum_range_succ,
        Finset.sum_range_succ, Finset.sum_range_zero,
        if_pos (by decide : 0 &&& 2 ^ 0 = 0), if_neg (by decide : ¬1 &&& 2 ^ 0 = 0)]
      simp [initState]
    rw [hval]
    norm_num
  exact ⟨⟨hp, rfl⟩, claim_C10 1 0 initState hp ⟨1, 0, []⟩ 3 initState []
    (Simulator.withSeed 0) rfl⟩

lemma fromPolar_mul (x y : ℝ) : fromPolar 1 x * fromPolar 1 y = fromPolar 1 (x + y) := by
  unfold fromPolar
  apply Complex.ext
  · simp only [Complex.mul_re, one_mul, Real.cos_add]
    try ring
  · simp only [Complex.mul_im, one_mul, Real.sin_add]
    try ring

lemma conj_fromPolar (x : ℝ) : conj (fromPolar 1 x) = fromPolar 1 (-x) := by
  unfold fromPolar
  apply Complex.ext
  · simp [Real.cos_neg]
  · simp [Real.sin_neg]

lemma fromPolar_zero : fromPolar 1 0 = 1 := by
  unfold fromPolar
  apply Complex.ext <;> simp

lemma conj_fromPolar_mul_self (x : ℝ) : conj (fromPolar 1 x) * fromPolar 1 x = 1 := by
  rw [conj_fromPolar, fromPolar_mul, neg_add_cancel, fromPolar_zero]

lemma unit_one : conj (1 : ℂ) * 1 = 1 := by simp

lemma unit_neg_one : conj (-1 : ℂ) * (-1) = 1 := by simp

lemma unit_I : conj Complex.I * Complex.I = 1 := by
  rw [Complex.conj_I]
  simp [Complex.I_mul_I]

lemma unit_neg_I : conj (-Complex.I) * (-Complex.I) = 1 := by
  rw [map_neg, Complex.conj_I]
  simp [Complex.I_mul_I]

/-- Column-orthonormality transfers the squared norm of a pair through the
matrix action: the algebraic heart of unitary-gate norm preservation. -/
lemma pair_preserve (M : Fin 2 → Fin 2 → ℂ) (hM : IsUnitary2 M) (a0 a1 : ℂ) :
    Complex.normSq (M 0 0 * a0 + M 0 1 * a1) +
      Complex.normSq (M 1 0 * a0 + M 1 1 * a1) =
    Complex.normSq a0 + Complex.normSq a1 := by
  obtain ⟨h1, h2, h3⟩ := hM
  have h4 : conj (M 0 1) * M 0 0 + conj (M 1 1) * M 1 0 = 0 := by
    have hc := congrArg conj h3
    simp only [map_add, map_mul, map_zero, Complex.conj_conj] at hc
    linear_combination hc
  have key : (M 0 0 * a0 + M 0 1 * a1) * conj (M 0 0 * a0 + M 0 1 * a1)
      + (M 1 0 * a0 + M 1 1 * a1) * conj (M 1 0 * a0 + M 1 1 * a1)
      = a0 * conj a0 + a1 * conj a1 := by
    simp only [map_add, map_mul]
    linear_combination (a0 * conj a0) * h1 + (a1 * conj a1) * h2 +
      (a1 * conj a0) * h3 + (a0 * conj a1) * h4
  rw [Complex.mul_conj, Complex.mul_conj, Complex.mul_conj, Complex.mul_conj] at key
  exact_mod_cast key

/-- Splitting a sum over all `2^n` indices into bit-`q` pairs. -/
lemma sum_split (n q : ℕ) (hq : q < n) (f : ℕ → ℝ) :
    ∑ j in Finset.range (2 ^ n), f j =
      ∑ j in Finset.range (2 ^ n),
        (if j &&& 2 ^ q = 0 then f j + f (j ||| 2 ^ q) else 0) := by
  have hsplit : ∀ j ∈ Finset.range (2 ^ n), f j =
      (if j &&& 2 ^ q = 0 then f j else 0) +
        (if j &&& 2 ^ q = 0 then 0 else f j) := by
    intro j _
    split <;> simp
  rw [Finset.sum_congr rfl hsplit, Finset.sum_add_distrib]
  have hreindex : ∑ j in Finset.range (2 ^ n), (if j &&& 2 ^ q = 0 then 0 else f j) =
      ∑ j in Finset.range (2 ^ n), (if j &&& 2 ^ q = 0 then f (j ||| 2 ^ q) else 0) := by
    apply Finset.sum_nbij' (fun j => j ^^^ 2 ^ q) (fun j => j ^^^ 2 ^ q)
    · intro j hj
      exact Finset.mem_range.mpr
        (xor_two_pow_lt j q n (Finset.mem_range.mp hj) hq)
    · intro j hj
      exact Finset.mem_range.mpr
        (xor_two_pow_lt j q n (Finset.mem_range.mp hj) hq)
    · intro j _
      exact Nat.xor_cancel_right _ _
    · intro j _
      exact Nat.xor_cancel_right _ _
    · intro j _
      by_cases hb : j &&& 2 ^ q = 0
      · rw [if_pos hb]
        have hb' : (j ^^^ 2 ^ q) &&& 2 ^ q ≠ 0 := by
          rw [and_two_pow_ne_zero_iff, xor_two_pow_testBit_self,
            (and_two_pow_eq_zero_iff j q).mp hb]
          rfl
        rw [if_neg hb']
      · rw [if_neg hb, if_pos (xor_two_pow_and j q hb), xor_or_two_pow j q hb]
  rw [hreindex, ← Finset.sum_add_distrib]
  apply Finset.sum_congr rfl
  intro j _
  split <;> simp

/-- `apply_single` with a column-orthonormal matrix preserves the total
probability mass. -/
lemma applySingle_norm (n q : ℕ) (hq : q < n) (M : Fin 2 → Fin 2 → ℂ)
    (hM : IsUnitary2 M) (a : ℕ → ℂ) :
    normSum n (applySingle n q M a) = normSum n a := by
  unfold normSum
  rw [sum_split n q hq (fun j => Complex.normSq (applySingle n q M a j)),
    sum_split n q hq (fun j => Complex.normSq (a j))]
  apply Finset.sum_congr rfl
  intro j hj
  by_cases hb : j &&& 2 ^ q = 0
  · rw [if_pos hb, if_pos hb]
    have hjlt := Finset.mem_range.mp hj
    have h1 : applySingle n q M a j = M 0 0 * a j + M 0 1 * a (j ||| 2 ^ q) := by
      rw [applySingle_char n q hq M a j, if_pos hjlt, if_pos hb]
    have h2 : applySingle n q M a (j ||| 2 ^ q) =
        M 1 0 * a ((j ||| 2 ^ q) ^^^ 2 ^ q) + M 1 1 * a (j ||| 2 ^ q) := by
      rw [applySingle_char n q hq M a _, if_pos (or_two_pow_lt j q n hjlt hq),
        if_neg (or_two_pow_and_ne j q)]
    rw [h1, h2, or_xor_two_pow j q hb]
    exact pair_preserve M hM (a j) (a (j ||| 2 ^ q))
  · rw [if_neg hb, if_neg hb]

/-- Degenerate `apply_controlled` with `control = target` is a no-op. -/
lemma applyControlled_self (n c : ℕ) (M : Fin 2 → Fin 2 → ℂ) (a : ℕ → ℂ) :
    applyControlled n c c M a = a := by
  unfold applyControlled
  have hfold : ∀ (L : List ℕ) (b : ℕ → ℂ),
      L.foldl (controlledStep (2 ^ c) (2 ^ c) M) b = b := by
    intro L
    induction L with
    | nil => intro b; rfl
    | cons i L ih =>
      intro b
      rw [List.foldl_cons]
      have hstep : controlledStep (2 ^ c) (2 ^ c) M b i = b := by
        unfold controlledStep
        rw [if_neg (fun hcon => hcon.1 hcon.2)]
      rw [hstep]
      exact ih b
  exact hfold _ a

/-- `apply_controlled` with a column-orthonormal matrix preserves the total
probability mass (also in the degenerate `control = target` case, where it
does nothing). -/
lemma applyControlled_norm (n c t : ℕ) (ht : t < n) (M : Fin 2 → Fin 2 → ℂ)
    (hM : IsUnitary2 M) (a : ℕ → ℂ) :
    normSum n (applyControlled n c t M a) = normSum n a := by
  by_cases hct : c = t
  · rw [hct, applyControlled_self]
  · unfold normSum
    rw [sum_split n t ht (fun j => Complex.normSq (applyControlled n c t M a j)),
      sum_split n t ht (fun j => Complex.normSq (a j))]
    apply Finset.sum_congr rfl
    intro j hj
    by_cases hb : j &&& 2 ^ t = 0
    · rw [if_pos hb, if_pos hb]
      have hjlt := Finset.mem_range.mp hj
      have horlt := or_two_pow_lt j t n hjlt ht
      have hctrl : (j ||| 2 ^ t) &&& 2 ^ c = j &&& 2 ^ c :=
        or_two_pow_and_other j t c hct
      by_cases hcb : j &&& 2 ^ c ≠ 0
      · have h1 : applyControlled n c t M a j =
            M 0 0 * a j + M 0 1 * a (j ||| 2 ^ t) := by
          rw [applyControlled_char n c t ht hct M a j, if_pos hjlt, if_pos hcb,
            if_pos hb]
        have h2 : applyControlled n c t M a (j ||| 2 ^ t) =
            M 1 0 * a ((j ||| 2 ^ t) ^^^ 2 ^ t) + M 1 1 * a (j ||| 2 ^ t) := by
          rw [applyControlled_char n c t ht hct M a _, if_pos horlt,
            if_pos (by rw [hctrl]; exact hcb), if_neg (or_two_pow_and_ne j t)]
        rw [h1, h2, or_xor_two_pow j t hb]
        exact pair_preserve M hM (a j) (a (j ||| 2 ^ t))
      · have h1 : applyControlled n c t M a j = a j := by
          rw [applyControlled_char n c t ht hct M a j, if_pos hjlt, if_neg hcb]
        have h2 : applyControlled n c t M a (j ||| 2 ^ t) = a (j ||| 2 ^ t) := by
          rw [applyControlled_char n c t ht hct M a _, if_pos horlt,
            if_neg (by rw [hctrl]; exact hcb)]
        rw [h1, h2]
    · rw [if_neg hb, if_neg hb]

lemma swapK_invol (k : Fin 4) : swapK (swapK k) = k := by
  fin_cases k <;> rfl

lemma quadRow_swap (m0 m1 : ℕ) (a : ℕ → ℂ) (b : ℕ) (k : Fin 4) :
    quadRow swapMatrix k m0 m1 a b = a (quadIdx m0 m1 b (swapK k)) := by
  fin_cases k <;> simp [quadRow, swapMatrix, swapK, Matrix.vecHead, Matrix.vecTail]

/-- SWAP applied with both sub-indices equal is a no-op. -/
lemma applyTwo_swap_self (n q : ℕ) (a : ℕ → ℂ) : applyTwo n q q swapMatrix a = a := by
  unfold applyTwo
  have hstep : ∀ (b : ℕ → ℂ) (i : ℕ), twoStep (2 ^ q) (2 ^ q) swapMatrix b i = b := by
    intro b i
    unfold twoStep
    by_cases hc : i &&& 2 ^ q = 0 ∧ i &&& 2 ^ q = 0
    · rw [if_pos hc]
      have hmm : i ||| 2 ^ q ||| 2 ^ q = i ||| 2 ^ q := by
        apply Nat.eq_of_testBit_eq
        intro c
        simp [Nat.testBit_or]
      simp [swapMatrix, hmm, Function.update_idem, Function.update_eq_self,
        Matrix.vecHead, Matrix.vecTail]
    · rw [if_neg hc]
  have hfold : ∀ (L : List ℕ) (b : ℕ → ℂ),
      L.foldl (twoStep (2 ^ q) (2 ^ q) swapMatrix) b = b := by
    intro L
    induction L with
    | nil => intro b; rfl
    | cons i L ih =>
      intro b
      rw [List.foldl_cons, hstep b i]
      exact ih b
  exact hfold _ a

/-- Pointwise, SWAP on distinct in-range qubits permutes the amplitudes by
exchanging the two targeted index bits. -/
lemma applyTwo_swap_char (n q0 q1 : ℕ) (hq : q0 ≠ q1) (a : ℕ → ℂ) (j : ℕ)
    (hj : j < 2 ^ n) :
    applyTwo n q0 q1 swapMatrix a j = a (swapPerm q0 q1 j) := by
  have hb0 := clearBits_and_left q0 q1 hq j
  have hb1 := clearBits_and_right q0 q1 hq j
  have hblt := clearBits_lt q0 q1 j n hj
  have hrec := quadIdx_clearBits_classOf q0 q1 hq j
  conv_lhs => rw [← hrec]
  rw [applyTwo_quad n q0 q1 hq swapMatrix a (clearBits q0 q1 j) hb0 hb1 hblt
    (classOf q0 q1 j), quadRow_swap]
  rfl

lemma swapPerm_invol (q0 q1 : ℕ) (hq : q0 ≠ q1) (j : ℕ) :
    swapPerm q0 q1 (swapPerm q0 q1 j) = j := by
  unfold swapPerm
  have hb0 := clearBits_and_left q0 q1 hq j
  have hb1 := clearBits_and_right q0 q1 hq j
  rw [clearBits_quadIdx q0 q1 hq _ hb0 hb1 (swapK (classOf q0 q1 j)),
    quadIdx_and_bits q0 q1 hq _ hb0 hb1 (swapK (classOf q0 q1 j)), swapK_invol]
  exact quadIdx_clearBits_classOf q0 q1 hq j

lemma swapPerm_lt (q0 q1 n : ℕ) (h0 : q0 < n) (h1 : q1 < n) (j : ℕ)
    (hj : j < 2 ^ n) : swapPerm q0 q1 j < 2 ^ n :=
  quadIdx_lt q0 q1 _ n h0 h1 (clearBits_lt q0 q1 j n hj) _

/-- The SWAP branch of the executor preserves the total probability mass. -/
lemma applyTwo_swap_norm (n q0 q1 : ℕ) (h0 : q0 < n) (h1 : q1 < n) (a : ℕ → ℂ) :
    normSum n (applyTwo n q0 q1 swapMatrix a) = normSum n a := by
  by_cases hq : q0 = q1
  · rw [hq, applyTwo_swap_self]
  · unfold normSum
    have hcong : ∀ j ∈ Finset.range (2 ^ n),
        Complex.normSq (applyTwo n q0 q1 swapMatrix a j) =
          Complex.normSq (a (swapPerm q0 q1 j)) := by
      intro j hj
      rw [applyTwo_swap_char n q0 q1 hq a j (Finset.mem_range.mp hj)]
    rw [Finset.sum_congr rfl hcong]
    apply Finset.sum_nbij' (fun j => swapPerm q0 q1 j) (fun j => swapPerm q0 q1 j)
    · intro j hjmem
      exact Finset.mem_range.mpr
        (swapPerm_lt q0 q1 n h0 h1 j (Finset.mem_range.mp hjmem))
    · intro j hjmem
      exact Finset.mem_range.mpr
        (swapPerm_lt q0 q1 n h0 h1 j (Finset.mem_range.mp hjmem))
    · intro j _
      exact swapPerm_invol q0 q1 hq j
    · intro j _
      exact swapPerm_invol q0 q1 hq j
    · intro j _
      rfl

lemma unitary_of_diag (u v : ℂ) (hu : conj u * u = 1) (hv : conj v * v = 1) :
    IsUnitary2 ![![u, 0], ![0, v]] := by
  refine ⟨?_, ?_, ?_⟩ <;> simp [hu, hv]

lemma unitary_of_antidiag (u v : ℂ) (hu : conj u * u = 1) (hv : conj v * v = 1) :
    IsUnitary2 ![![0, u], ![v, 0]] := by
  refine ⟨?_, ?_, ?_⟩ <;> simp [hu, hv]

lemma unitary_xMatrix : IsUnitary2 xMatrix :=
  unitary_of_antidiag 1 1 unit_one unit_one

lemma unitary_yMatrix : IsUnitary2 yMatrix :=
  unitary_of_antidiag (-Complex.I) Complex.I unit_neg_I unit_I

lemma unitary_zMatrix : IsUnitary2 zMatrix :=
  unitary_of_diag 1 (-1) unit_one unit_neg_one

lemma unitary_sMatrix : IsUnitary2 sMatrix :=
  unitary_of_diag 1 Complex.I unit_one unit_I

lemma unitary_sdgMatrix : IsUnitary2 ![![1, 0], ![0, -Complex.I]] :=
  unitary_of_diag 1 (-Complex.I) unit_one unit_neg_I

lemma unitary_tMatrix : IsUnitary2 tMatrix :=
  unitary_of_diag 1 (fromPolar 1 (Real.pi / 4)) unit_one
    (conj_fromPolar_mul_self _)

lemma unitary_tdgMatrix : IsUnitary2 tdgMatrix :=
  unitary_of_diag 1 (fromPolar 1 (-(Real.pi / 4))) unit_one
    (conj_fromPolar_mul_self _)

lemma unitary_cpMatrix (θ : ℝ) : IsUnitary2 (cpMatrix θ) :=
  unitary_of_diag 1 (fromPolar 1 θ) unit_one (conj_fromPolar_mul_self _)

lemma unitary_idMatrix : IsUnitary2 ![![1, 0], ![0, 1]] :=
  unitary_of_diag 1 1 unit_one unit_one

lemma invSqrt2_mul_self : (invSqrt2 : ℝ) * invSqrt2 = 1 / 2 := by
  unfold invSqrt2
  rw [div_mul_div_comm, one_mul, Real.mul_self_sqrt (by norm_num : (0 : ℝ) ≤ 2)]

lemma unitary_hMatrix : IsUnitary2 hMatrix := by
  have key : (invSqrt2 : ℂ) * invSqrt2 = 1 / 2 := by
    rw [← Complex.ofReal_mul, invSqrt2_mul_self]
    norm_num
  refine ⟨?_, ?_, ?_⟩ <;>
    simp only [hMatrix, Matrix.cons_val_zero, Matrix.cons_val_one, Matrix.head_cons,
      map_neg, Complex.conj_ofReal, mul_neg, neg_mul, neg_neg]
  · linear_combination 2 * key
  · linear_combination 2 * key
  · ring

lemma unitary_rxMatrix (θ : ℝ) :
    IsUnitary2 ![![(Real.cos (θ / 2) : ℂ), ⟨0, -Real.sin (θ / 2)⟩],
      ![⟨0, -Real.sin (θ / 2)⟩, (Real.cos (θ / 2) : ℂ)]] := by
  have hmk : (⟨0, -Real.sin (θ / 2)⟩ : ℂ) = -(Real.sin (θ / 2) : ℂ) * Complex.I := by
    apply Complex.ext <;> simp [-Complex.ofReal_sin]
  have hsc : ((Real.cos (θ / 2) : ℂ)) * (Real.cos (θ / 2) : ℂ) +
      ((Real.sin (θ / 2) : ℂ)) * (Real.sin (θ / 2) : ℂ) = 1 := by
    rw [← Complex.ofReal_mul, ← Complex.ofReal_mul, ← Complex.ofReal_add]
    norm_cast
    nlinarith [Real.sin_sq_add_cos_sq (θ / 2)]
  have hI : Complex.I * Complex.I = -1 := Complex.I_mul_I
  refine ⟨?_, ?_, ?_⟩ <;>
    simp only [Matrix.cons_val_zero, Matrix.cons_val_one, Matrix.head_cons, hmk,
      map_mul, map_neg, Complex.conj_ofReal, Complex.conj_I, mul_neg, neg_mul, neg_neg]
  · linear_combination hsc -
      ((Real.sin (θ / 2) : ℂ) * (Real.sin (θ / 2) : ℂ)) * hI
  · linear_combination hsc -
      ((Real.sin (θ / 2) : ℂ) * (Real.sin (θ / 2) : ℂ)) * hI
  · ring

lemma unitary_ryMatrix (θ : ℝ) :
    IsUnitary2 ![![(Real.cos (θ / 2) : ℂ), -(Real.sin (θ / 2) : ℂ)],
      ![(Real.sin (θ / 2) : ℂ), (Real.cos (θ / 2) : ℂ)]] := by
  have hsc := Real.sin_sq_add_cos_sq (θ / 2)
  refine ⟨?_, ?_, ?_⟩ <;>
    simp only [Matrix.cons_val_zero, Matrix.cons_val_one, Matrix.head_cons, map_neg,
      Complex.conj_ofReal, mul_neg, neg_mul, neg_neg]
  · rw [← Complex.ofReal_mul, ← Complex.ofReal_mul, ← Complex.ofReal_add]
    norm_cast
    nlinarith [hsc]
  · rw [← Complex.ofReal_mul, ← Complex.ofReal_mul, ← Complex.ofReal_add]
    norm_cast
    nlinarith [hsc]
  · ring

lemma unitary_rzMatrix (θ : ℝ) :
    IsUnitary2 ![![fromPolar 1 (-θ / 2), 0], ![0, fromPolar 1 (θ / 2)]] :=
  unitary_of_diag _ _ (conj_fromPolar_mul_self _) (conj_fromPolar_mul_self _)

lemma unitary_pMatrix (θ : ℝ) : IsUnitary2 ![![1, 0], ![0, fromPolar 1 θ]] :=
  unitary_of_diag 1 (fromPolar 1 θ) unit_one (conj_fromPolar_mul_self _)

lemma unitary_uMatrix (θ φ lam : ℝ) :
    IsUnitary2 ![![(Real.cos (θ / 2) : ℂ), -fromPolar 1 lam * (Real.sin (θ / 2) : ℂ)],
      ![fromPolar 1 φ * (Real.sin (θ / 2) : ℂ),
        fromPolar 1 (φ + lam) * (Real.cos (θ / 2) : ℂ)]] := by
  have hsc : ((Real.cos (θ / 2) : ℂ)) * (Real.cos (θ / 2) : ℂ) +
      ((Real.sin (θ / 2) : ℂ)) * (Real.sin (θ / 2) : ℂ) = 1 := by
    rw [← Complex.ofReal_mul, ← Complex.ofReal_mul, ← Complex.ofReal_add]
    norm_cast
    nlinarith [Real.sin_sq_add_cos_sq (θ / 2)]
  have hφ : conj (fromPolar 1 φ) * fromPolar 1 φ = 1 := conj_fromPolar_mul_self φ
  have hlam : conj (fromPolar 1 lam) * fromPolar 1 lam = 1 := conj_fromPolar_mul_self lam
  have hφlam : conj (fromPolar 1 (φ + lam)) * fromPolar 1 (φ + lam) = 1 :=
    conj_fromPolar_mul_self (φ + lam)
  have hcross : conj (fromPolar 1 φ) * fromPolar 1 (φ + lam) = fromPolar 1 lam := by
    rw [conj_fromPolar, fromPolar_mul]
    congr 1
    ring
  refine ⟨?_, ?_, ?_⟩ <;>
    simp only [Matrix.cons_val_zero, Matrix.cons_val_one, Matrix.head_cons, map_mul,
      map_neg, Complex.conj_ofReal, mul_neg, neg_mul, neg_neg]
  · linear_combination ((Real.sin (θ / 2) : ℂ) * (Real.sin (θ / 2) : ℂ)) * hφ + hsc
  · linear_combination ((Real.sin (θ / 2) : ℂ) * (Real.sin (θ / 2) : ℂ)) * hlam +
      ((Real.cos (θ / 2) : ℂ) * (Real.cos (θ / 2) : ℂ)) * hφlam + hsc
  · linear_combination ((Real.sin (θ / 2) : ℂ) * (Real.cos (θ / 2) : ℂ)) * hcross

/-- Every 2×2 matrix the gate catalog returns is column-orthonormal. -/
lemma matrix2x2_unitary (g : Gate) (m : Fin 2 → Fin 2 → ℂ)
    (h : g.matrix2x2 = some m) : IsUnitary2 m := by
  unfold Gate.matrix2x2 at h
  split at h
  all_goals try split at h
  all_goals try exact Option.noConfusion h
  all_goals simp only [Option.some.injEq] at h
  all_goals subst h
  · exact unitary_idMatrix
  · exact unitary_xMatrix
  · exact unitary_yMatrix
  · exact unitary_zMatrix
  · exact unitary_hMatrix
  · exact unitary_sMatrix
  · exact unitary_sdgMatrix
  · exact unitary_tMatrix
  · exact unitary_tdgMatrix
  · exact unitary_rxMatrix _
  · exact unitary_ryMatrix _
  · exact unitary_rzMatrix _
  · exact unitary_pMatrix _
  · exact unitary_uMatrix _ _ _

lemma applyCcx_norm (n c1 c2 t : ℕ) (h1 : c1 < n) (h2 : c2 < n) (ht : t < n)
    (a : ℕ → ℂ) : normSum n (applyCcx n c1 c2 t a) = normSum n a := by
  simp only [applyCcx]
  rw [applySingle_norm n c2 h2 _ unitary_sMatrix,
      applySingle_norm n c1 h1 _ unitary_tMatrix,
      applyControlled_norm n c1 c2 h2 _ unitary_xMatrix,
      applySingle_norm n c2 h2 _ unitary_tdgMatrix,
      applyControlled_norm n c1 c2 h2 _ unitary_xMatrix,
      applySingle_norm n t ht _ unitary_hMatrix,
      applySingle_norm n t ht _ unitary_tMatrix,
      applySingle_norm n c2 h2 _ unitary_tMatrix,
      applyControlled_norm n c1 t ht _ unitary_xMatrix,
      applySingle_norm n t ht _ unitary_tdgMatrix,
      applyControlled_norm n c2 t ht _ unitary_xMatrix,
      applySingle_norm n t ht _ unitary_tMatrix,
      applyControlled_norm n c1 t ht _ unitary_xMatrix,
      applySingle_norm n t ht _ unitary_tdgMatrix,
      applyControlled_norm n c2 t ht _ unitary_xMatrix,
      applySingle_norm n t ht _ unitary_hMatrix]

lemma applyCswap_norm (n control t1 t2 : ℕ) (hc : control < n) (h1 : t1 < n)
    (h2 : t2 < n) (a : ℕ → ℂ) :
    normSum n (applyCswap n control t1 t2 a) = normSum n a := by
  simp only [applyCswap]
  rw [applyControlled_norm n t2 t1 h1 _ unitary_xMatrix,
      applyCcx_norm n control t1 t2 hc h1 h2,
      applyControlled_norm n t2 t1 h1 _ unitary_xMatrix]

/-- A successfully applied non-Measure, non-Reset instruction with in-range
qubit operands preserves the total probability mass. -/
lemma applyInstruction_norm (sim : Simulator) (n : ℕ) (a : ℕ → ℂ) (bits : List ℕ)
    (inst : Instruction)
    (hnm : inst.gate.gate_type ≠ .Measure) (hnr : inst.gate.gate_type ≠ .Reset)
    (hq : ∀ k, k < 3 → inst.qubits.getD k 0 < n)
    (a' : ℕ → ℂ) (bits' : List ℕ) (sim' : Simulator)
    (h : applyInstruction sim n a bits inst = .ok (a', bits', sim')) :
    normSum n a' = normSum n a := by
  have hq0 := hq 0 (by norm_num)
  have hq1 := hq 1 (by norm_num)
  have hq2 := hq 2 (by norm_num)
  cases hgt : inst.gate.gate_type
  case Measure => exact absurd hgt hnm
  case Reset => exact absurd hgt hnr
  case CU =>
    simp only [applyInstruction, hgt] at h
    exact Except.noConfusion h
  case ISwap =>
    simp only [applyInstruction, hgt] at h
    exact Except.noConfusion h
  case SqrtSwap =>
    simp only [applyInstruction, hgt] at h
    exact Except.noConfusion h
  case CX =>
    simp only [applyInstruction, hgt, Except.ok.injEq, Prod.mk.injEq] at h
    obtain ⟨ha, -, -⟩ := h
    rw [← ha]
    exact applyControlled_norm n _ _ hq1 _ unitary_xMatrix a
  case CY =>
    simp only [applyInstruction, hgt, Except.ok.injEq, Prod.mk.injEq] at h
    obtain ⟨ha, -, -⟩ := h
    rw [← ha]
    exact applyControlled_norm n _ _ hq1 _ unitary_yMatrix a
  case CZ =>
    simp only [applyInstruction, hgt, Except.ok.injEq, Prod.mk.injEq] at h
    obtain ⟨ha, -, -⟩ := h
    rw [← ha]
    exact applyControlled_norm n _ _ hq1 _ unitary_zMatrix a
  case CH =>
    simp only [applyInstruction, hgt, Except.ok.injEq, Prod.mk.injEq] at h
    obtain ⟨ha, -, -⟩ := h
    rw [← ha]
    exact applyControlled_norm n _ _ hq1 _ unitary_hMatrix a
  case CP =>
    simp only [applyInstruction, hgt] at h
    split at h
    · simp only [Except.ok.injEq, Prod.mk.injEq] at h
      obtain ⟨ha, -, -⟩ := h
      rw [← ha]
      exact applyControlled_norm n _ _ hq1 _ (unitary_cpMatrix _) a
    · simp only [Except.ok.injEq, Prod.mk.injEq] at h
      obtain ⟨ha, -, -⟩ := h
      rw [← ha]
  case Swap =>
    simp only [applyInstruction, hgt, Except.ok.injEq, Prod.mk.injEq] at h
    obtain ⟨ha, -, -⟩ := h
    rw [← ha]
    exact applyTwo_swap_norm n _ _ hq0 hq1 a
  case CCX =>
    simp only [applyInstruction, hgt, Except.ok.injEq, Prod.mk.injEq] at h
    obtain ⟨ha, -, -⟩ := h
    rw [← ha]
    exact applyCcx_norm n _ _ _ hq0 hq1 hq2 a
  case CSwap =>
    simp only [applyInstruction, hgt, Except.ok.injEq, Prod.mk.injEq] at h
    obtain ⟨ha, -, -⟩ := h
    rw [← ha]
    exact applyCswap_norm n _ _ _ hq0 hq1 hq2 a
  case Barrier =>
    simp only [applyInstruction, hgt, Except.ok.injEq, Prod.mk.injEq] at h
    obtain ⟨ha, -, -⟩ := h
    rw [← ha]
  all_goals
    simp only [applyInstruction, hgt] at h
  all_goals split at h
  all_goals first
    | exact Except.noConfusion h
    | (simp only [Except.ok.injEq, Prod.mk.injEq] at h
       obtain ⟨ha, -, -⟩ := h
       rw [← ha]
       exact applySingle_norm n _ hq0 _
         (matrix2x2_unitary inst.gate _ (by assumption)) a)

/-- The executor loop preserves the total probability mass on any circuit
fragment free of Measure/Reset with in-range qubit operands. -/
lemma execInstrs_norm (n : ℕ) : ∀ (instrs : List Instruction) (sim : Simulator)
    (a : ℕ → ℂ) (bits : List ℕ) (a' : ℕ → ℂ) (bits' : List ℕ) (sim' : Simulator),
    (∀ inst ∈ instrs,
      inst.gate.gate_type ≠ GateType.Measure ∧ inst.gate.gate_type ≠ GateType.Reset) →
    (∀ inst ∈ instrs, ∀ k, k < 3 → inst.qubits.getD k 0 < n) →
    execInstrs sim n a bits instrs = .ok (a', bits', sim') →
    normSum n a' = normSum n a := by
  intro instrs
  induction instrs with
  | nil =>
    intro sim a bits a' bits' sim' _ _ h
    simp only [execInstrs, Except.ok.injEq, Prod.mk.injEq] at h
    obtain ⟨h1, -, -⟩ := h
    rw [← h1]
  | cons inst rest ih =>
    intro sim a bits a' bits' sim' hno hq h
    cases happ : applyInstruction sim n a bits inst with
    | error e =>
      simp only [execInstrs, happ] at h
      simp at h
    | ok res =>
      obtain ⟨a1, bits1, sim1⟩ := res
      simp only [execInstrs, happ] at h
      have hstep := applyInstruction_norm sim n a bits inst
        (hno inst (List.mem_cons_self inst rest)).1
        (hno inst (List.mem_cons_self inst rest)).2
        (hq inst (List.mem_cons_self inst rest)) a1 bits1 sim1 happ
      have hrest := ih sim1 a1 bits1 a' bits' sim'
        (fun i hi => hno i (List.mem_cons_of_mem inst hi))
        (fun i hi => hq i (List.mem_cons_of_mem inst hi)) h
      rw [hrest, hstep]

lemma normSum_initState (n : ℕ) : normSum n initState = 1 := by
  unfold normSum initState
  rw [Finset.sum_eq_single 0]
  · simp
  · intro b _ hb
    simp [hb]
  · intro h0
    exact absurd (Finset.mem_range.mpr (Nat.pos_pow_of_pos n (by norm_num))) h0

/-- Claim C3: for every circuit built purely from unitary gates (no
Measure/Reset) whose qubit operands are in range, a successful
`Simulator::run` from the exactly normalized initial state `|0…0⟩` returns a
state whose total probability mass `Σ_i |amplitude_i|²` equals 1 — in the
real-number model exactly, hence in particular within the spec's `1e-10`
tolerance. -/
theorem claim_C3 (sim : Simulator) (c : Circuit)
    (hu : unitaryOnly c) (hqs : qubitsOk c)
    (a' : ℕ → ℂ) (sim' : Simulator)
    (h : sim.run c = .ok (a', sim')) :
    normSum c.num_qubits a' = 1 ∧ |normSum c.num_qubits a' - 1| ≤ 1e-10 := by
  unfold Simulator.run Simulator.runFromState at h
  rw [if_neg (by simp)] at h
  cases hexec : execInstrs sim c.num_qubits initState
      (List.replicate c.num_clbits 0) c.instructions with
  | error e =>
    rw [hexec] at h
    exact Except.noConfusion h
  | ok res =>
    obtain ⟨a1, bits1, sim1⟩ := res
    rw [hexec] at h
    simp only [Except.ok.injEq, Prod.mk.injEq] at h
    obtain ⟨ha, -⟩ := h
    have hkeep := execInstrs_norm c.num_qubits c.instructions sim initState
      (List.replicate c.num_clbits 0) a1 bits1 sim1 hu hqs hexec
    refine ⟨?_, ?_⟩
    · rw [← ha, hkeep, normSum_initState]
    · rw [← ha, hkeep, normSum_initState]
      norm_num

/-- Witness for claim C3 at a concrete input: the empty 1-qubit circuit is
unitary-only with in-range operands, `run` succeeds, and the resulting state
has total probability mass exactly 1 (hence within `1e-10` of 1). -/
theorem claim_C3_witness :
    normSum 1 initState = 1 ∧ |normSum 1 initState - 1| ≤ 1e-10 :=
  claim_C3 Simulator.new ⟨1, 0, []⟩
    (fun inst hi => absurd hi (List.not_mem_nil inst))
    (fun inst hi => absurd hi (List.not_mem_nil inst))
    initState Simulator.new rfl

end Quasar
